import Mathlib

/-!
Shallow embedding of the ccthief source extractor (src/main.rs) and proofs of
the specification claims.  Entities of the clang front end are identified by
natural-number ids; their front-end attributes (kind, name, location, range,
resolved definition, type declarations, subtree, flags) are supplied by a
`World`.  Fallible code (Rust `unwrap`, panics, slice indexing) is modelled in
`Except RtErr`.
-/

namespace CcThief

/-- Kind classification of a front-end entity; only the kinds the program
inspects are distinguished. -/
inductive EntityKind where
  | functionDecl
  | varDecl
  | typeDeclKind
  | macroDef
  | macroExp
  | inclDir
  | otherKind
deriving DecidableEq, Repr

/-- Rust `FileLocation`: file (optional, as in clang), line, column, offset. -/
structure FileLoc where
  file : Option Nat
  line : Nat
  column : Nat
  offset : Nat
deriving DecidableEq, Repr

/-- Rust `SourceLocation`: exposes both `get_file_location` and
`get_expansion_location`. -/
structure SrcLoc where
  fileLoc : FileLoc
  expLoc : FileLoc
deriving DecidableEq, Repr

/-- Rust `SourceRange` with its start and end locations. -/
structure SrcRange where
  rstart : SrcLoc
  rstop : SrcLoc
deriving DecidableEq, Repr

/-- Filesystem path as a list of components (Rust `PathBuf`). -/
abbrev FsPath := List String

/-- Attributes of one front-end entity, as consumed by the program.
`definition` models `get_definition`, `typeDecl` models
`get_type().get_declaration()`, `typedefDecl` models
`get_typedef_underlying_type().get_declaration()`, `descendants` the entities
reached by `visit_children` with `Recurse` in traversal order. -/
structure EntityData where
  kind : EntityKind
  name : Option String
  location : Option SrcLoc
  range : Option SrcRange
  definition : Option Nat
  typeDecl : Option Nat
  typedefDecl : Option Nat
  descendants : List Nat
  is_definition : Bool
  is_declaration : Bool
  in_system_header : Bool
deriving Repr

/-- The front-end and filesystem environment: entity attributes, the path of
each file id, and path canonicalization. -/
structure World where
  data : Nat → EntityData
  filePath : Nat → FsPath
  canon : FsPath → FsPath

/-- Runtime failures of the Rust code: `unwrap` on `None`, the
`panic!("Should not happen")` branch in `visit`, a missing `HashMap` key
(`&sym_table[&entity]`), out-of-bounds line indexing in the emitter, and
exhaustion of the fuel that stands in for the unbounded `while` loop. -/
inductive RtErr where
  | unwrapNone
  | shouldNotHappen
  | keyNotFound (x : Nat)
  | lineOutOfRange
  | outOfFuel
deriving DecidableEq, Repr

/-- Rust `get_path`: `entity.get_location().unwrap().get_file_location()
.file.unwrap().get_path()`. -/
def get_path (w : World) (e : Nat) : Except RtErr FsPath :=
  match (w.data e).location with
  | none => .error .unwrapNone
  | some loc =>
    match loc.fileLoc.file with
    | none => .error .unwrapNone
    | some f => .ok (w.filePath f)

/-- Symbol descriptor: `deps` and `definitions` sets. -/
structure SymbolDesc where
  deps : Finset Nat := ∅
  definitions : Finset Nat := ∅
deriving DecidableEq

/-- The global symbol table as an association list (one iteration order of the
Rust `HashMap`). -/
abbrev SymTable := List (Nat × SymbolDesc)

/-- Lookup in the symbol table (Rust `HashMap` access by key). -/
def tableGet (st : SymTable) (x : Nat) : Option SymbolDesc :=
  match st with
  | [] => none
  | (k, d) :: rest => if x = k then some d else tableGet rest x

/-- Keys of the symbol table. -/
def tableKeys (st : SymTable) : List Nat := st.map Prod.fst

/-- Display of a path (Rust `to_str`). -/
def pathToString (p : FsPath) : String := String.intercalate "/" p

/-- Rust `str::contains`: substring test. -/
def strContains (hay pat : String) : Bool := decide (pat.toList <:+: hay.toList)

/-- One step of the `visit_children` closure in `visit` (src/main.rs lines
63-86): for a descendant with a resolved definition, print its path (which
`unwrap`s the definition's location and file), then add the definition, its
type's declaring entity and its typedef-underlying type's declaring entity to
`deps` whenever they are symbol-table keys.  `childAdd` is the pure part: add
the definition, its type's declaring entity and its typedef-underlying type's
declaring entity when each is a table key. -/
def childAdd (w : World) (tbl : List Nat) (acc : SymbolDesc) (d : Nat) :
    SymbolDesc :=
  let acc1 := if tbl.contains d then { acc with deps := insert d acc.deps } else acc
  let acc2 :=
    match (w.data d).typeDecl with
    | some t => if tbl.contains t then { acc1 with deps := insert t acc1.deps } else acc1
    | none => acc1
  match (w.data d).typedefDecl with
  | some t => if tbl.contains t then { acc2 with deps := insert t acc2.deps } else acc2
  | none => acc2

def childStep (w : World) (tbl : List Nat) (acc : SymbolDesc) (child : Nat) :
    Except RtErr SymbolDesc :=
  match (w.data child).definition with
  | none => .ok acc
  | some d => (get_path w d).map fun _ => childAdd w tbl acc d

/-- One step of the macro-index range loop in `visit` (src/main.rs lines
97-112): an in-range entry in the same file is added to `deps` when it is a
macro expansion, added to `deps` and to the include list when it is an
inclusion directive, and panics (`Should not happen`) otherwise. -/
def rangeStepCore (w : World) (acc : SymbolDesc × List Nat) (p : Nat × Nat)
    (cloc eloc : SrcLoc) : Except RtErr (SymbolDesc × List Nat) :=
  if cloc.fileLoc.file = eloc.fileLoc.file then
    match (w.data p.2).kind with
    | .macroExp => .ok ({ acc.1 with deps := insert p.2 acc.1.deps }, acc.2)
    | .inclDir => .ok ({ acc.1 with deps := insert p.2 acc.1.deps }, acc.2 ++ [p.2])
    | _ => .error .shouldNotHappen
  else .ok acc

def rangeStep (w : World) (entity : Nat) (acc : SymbolDesc × List Nat)
    (p : Nat × Nat) : Except RtErr (SymbolDesc × List Nat) :=
  match (w.data p.2).location with
  | none => .error .unwrapNone
  | some cloc =>
    match (w.data entity).location with
    | none => .error .unwrapNone
    | some eloc => rangeStepCore w acc p cloc eloc

/-- One step of the include/macro substring scan in `visit` (src/main.rs lines
116-127): any macro-index entry whose source file path contains the include's
target name as a substring is added to `deps`. -/
def includeScanStep (w : World) (nm : String) (acc : SymbolDesc) (p : Nat × Nat) :
    Except RtErr SymbolDesc := do
  let fp ← get_path w p.2
  if strContains (pathToString fp) nm then
    .ok { acc with deps := insert p.2 acc.deps }
  else
    .ok acc

/-- Initial descriptor of `visit` (src/main.rs lines 57-61): the entity's own
resolved definition, when any, goes to `definitions`. -/
def visitInit (w : World) (entity : Nat) : SymbolDesc :=
  match (w.data entity).definition with
  | some d => { definitions := insert d (∅ : Finset Nat) }
  | none => {}

/-- The include/macro substring scan of `visit` for one collected include
(src/main.rs lines 116-127). -/
def includeScan (w : World) (mIndex : List (Nat × Nat)) (acc : SymbolDesc)
    (inc : Nat) : Except RtErr SymbolDesc :=
  match (w.data inc).name with
  | none => Except.error RtErr.unwrapNone
  | some nm => mIndex.foldlM (includeScanStep w nm) acc

/-- Tail of `visit` after the child traversal (src/main.rs lines 91-129):
unwrap the entity's range, walk the macro index restricted to the entity's
inclusive line range, then run the substring scan over every collected
include. -/
def visitRange (w : World) (entity : Nat) (mIndex : List (Nat × Nat))
    (desc1 : SymbolDesc) (rng : SrcRange) : Except RtErr SymbolDesc :=
  ((mIndex.filter
      (fun p => rng.rstart.fileLoc.line ≤ p.1 && p.1 ≤ rng.rstop.fileLoc.line)).foldlM
    (rangeStep w entity) (desc1, ([] : List Nat))) >>= fun step2 =>
    (step2.2.foldlM (includeScan w mIndex) step2.1) >>= fun desc3 => .ok desc3

def visitRest (w : World) (entity : Nat) (mIndex : List (Nat × Nat))
    (desc1 : SymbolDesc) : Except RtErr SymbolDesc :=
  match (w.data entity).range with
  | none => .error .unwrapNone
  | some rng => visitRange w entity mIndex desc1 rng

/-- The dependency analyzer `visit` (src/main.rs lines 51-130).  `tbl` is the
key set of the global symbol table (the only part `visit` consults), `mIndex`
the translation unit's macro index as an ordered line-to-entity list. -/
def visit (w : World) (entity : Nat) (tbl : List Nat) (mIndex : List (Nat × Nat)) :
    Except RtErr SymbolDesc :=
  ((w.data entity).descendants.foldlM (childStep w tbl) (visitInit w entity)) >>=
    visitRest w entity mIndex

/-- Insert into a `BTreeMap`-like sorted association list: a later insertion
with an equal key replaces the earlier entry (Rust `BTreeMap::insert`). -/
def btInsert (k v : Nat) : List (Nat × Nat) → List (Nat × Nat)
  | [] => [(k, v)]
  | (k2, v2) :: rest =>
    if k < k2 then (k, v) :: (k2, v2) :: rest
    else if k = k2 then (k, v) :: rest
    else (k2, v2) :: btInsert k v rest

/-- The kinds recorded by the macro-index builder: macro expansions,
inclusion directives and macro definitions (src/main.rs line 253). -/
def isMacroKind (k : EntityKind) : Bool :=
  match k with
  | .macroExp | .inclDir | .macroDef => true
  | _ => false

/-- One step of the macro-index construction (src/main.rs lines 247-259):
skip system-header entities; record macro definitions, macro expansions and
inclusion directives under their expansion line. -/
def macroIndexStep (w : World) (m : List (Nat × Nat)) (child : Nat) :
    Except RtErr (List (Nat × Nat)) :=
  if (w.data child).in_system_header then .ok m
  else if isMacroKind (w.data child).kind then
    match (w.data child).location with
    | some loc => .ok (btInsert loc.expLoc.line child m)
    | none => .error .unwrapNone
  else .ok m

/-- The per-translation-unit macro index (src/main.rs lines 245-259), built
over the unit's top-level children in enumeration order. -/
def buildMacroIndex (w : World) (children : List Nat) :
    Except RtErr (List (Nat × Nat)) :=
  children.foldlM (macroIndexStep w) []

/-- File location key used by the declaration/definition merger
(`entity.get_location().unwrap().get_file_location()`). -/
def locKey (w : World) (e : Nat) : Option FileLoc :=
  ((w.data e).location).map (·.fileLoc)

/-- Phase 1 of the merger (src/main.rs lines 283-294): the location-to-
definitions map, sending a location to the union of the `definitions` sets of
every declaration-kind table entry at that location. -/
def phase1 (w : World) : SymTable → Except RtErr (FileLoc → Finset Nat)
  | [] => .ok fun _ => ∅
  | (e, d) :: rest => do
    let t ← phase1 w rest
    if (w.data e).is_declaration then
      match locKey w e with
      | some l => .ok fun l2 => if l2 = l then d.definitions ∪ t l2 else t l2
      | none => .error .unwrapNone
    else .ok t

/-- Phase 2 of the merger (src/main.rs lines 296-305): every declaration-kind
entry merges the phase-1 union at its own location into its `definitions`. -/
def phase2 (w : World) (t : FileLoc → Finset Nat) :
    SymTable → Except RtErr SymTable
  | [] => .ok []
  | (e, d) :: rest => do
    let rest2 ← phase2 w t rest
    if (w.data e).is_declaration then
      match locKey w e with
      | some l => .ok ((e, { d with definitions := d.definitions ∪ t l }) :: rest2)
      | none => .error .unwrapNone
    else .ok ((e, d) :: rest2)

/-- The two-phase declaration/definition merger (src/main.rs lines 279-306). -/
def mergeDefs (w : World) (st : SymTable) : Except RtErr SymTable := do
  let t ← phase1 w st
  phase2 w t st

/-- Terminal kinds of the breadth-first extraction: inclusion directives and
macro expansions short-circuit before any table access. -/
def isTerminal (w : World) (x : Nat) : Bool :=
  match (w.data x).kind with
  | .inclDir | .macroExp => true
  | _ => false

/-- The seed queue of the extractor (src/main.rs lines 141-152): every table
key whose name is one of the entry names. -/
def seedQueue (w : World) (targets : List String) (st : SymTable) : List Nat :=
  (tableKeys st).filter fun e =>
    match (w.data e).name with
    | some n => targets.contains n
    | none => false

/-- The breadth-first flood-fill loop of `extract_symbols` (src/main.rs lines
154-179).  `enum2` fixes an iteration order for the Rust `HashSet`s `deps` and
`definitions`; `tr` records every entity whose descriptor was looked up. -/
def bfsLoop (w : World) (st : SymTable) (enum2 : Finset Nat → List Nat) :
    Nat → List Nat → Finset Nat → List Nat →
    Except RtErr (Finset Nat × List Nat)
  | 0, _, _, _ => .error .outOfFuel
  | _ + 1, [], visited, tr => .ok (visited, tr)
  | fuel + 1, x :: q, visited, tr =>
    if x ∈ visited then bfsLoop w st enum2 fuel q visited tr
    else if isTerminal w x then bfsLoop w st enum2 fuel q (insert x visited) tr
    else
      match tableGet st x with
      | none => .error (.keyNotFound x)
      | some d =>
        bfsLoop w st enum2 fuel
          (q ++ ((enum2 d.deps).filter (fun y => y ∉ insert x visited) ++
            (enum2 d.definitions).filter (fun y => y ∉ insert x visited)))
          (insert x visited) (tr ++ [x])

/-- Fuel that dominates the number of loop iterations: initial queue length
plus the total number of dependency and definition edges in the table. -/
def extractFuel (st : SymTable) (q0 : List Nat) : Nat :=
  q0.length + (st.map fun p => p.2.deps.card + p.2.definitions.card).sum + 1

/-- The set of table keys. -/
def keysFinset (st : SymTable) : Finset Nat := (tableKeys st).toFinset

/-- Number of outgoing edges of a key's descriptor. -/
def ecard (st : SymTable) (x : Nat) : Nat :=
  match tableGet st x with
  | some d => d.deps.card + d.definitions.card
  | none => 0

/-- Termination potential of the breadth-first loop: pending queue entries
plus the edges of every key not yet visited. -/
def potential (st : SymTable) (q : List Nat) (visited : Finset Nat) : Nat :=
  q.length + ((keysFinset st).filter (fun x => x ∉ visited)).sum (ecard st)

/-- `extract_symbols` instrumented with the list of entities whose descriptors
were looked up, parameterized by the `HashSet` iteration order `enum2`
(src/main.rs lines 132-191, including the final no-op reinsertion of the used
macro expansions). -/
def extractTrace (w : World) (targets : List String) (st : SymTable)
    (enum2 : Finset Nat → List Nat) : Except RtErr (Finset Nat × List Nat) :=
  match bfsLoop w st enum2 (extractFuel st (seedQueue w targets st))
      (seedQueue w targets st) ∅ [] with
  | .error e => .error e
  | .ok r => .ok (r.1 ∪ r.1.filter (fun e => (w.data e).kind = .macroExp), r.2)

/-- The set iteration order actually used to run the model: ascending ids. -/
def sortEnum (s : Finset Nat) : List Nat :=
  (List.range (s.sup id + 1)).filter (· ∈ s)

/-- The extracted set under a given `HashSet` iteration order. -/
def extractWith (w : World) (targets : List String) (st : SymTable)
    (enum2 : Finset Nat → List Nat) : Except RtErr (Finset Nat) :=
  match extractTrace w targets st enum2 with
  | .error e => .error e
  | .ok r => .ok r.1

/-- `extract_symbols` (src/main.rs lines 132-191): the extracted set. -/
def extract_symbols (w : World) (targets : List String) (st : SymTable) :
    Except RtErr (Finset Nat) :=
  extractWith w targets st sortEnum

/-- Splitting a character list on the path separator. -/
def splitComponents : List Char → List Char → List (List Char)
  | [], cur => [cur.reverse]
  | c :: rest, cur =>
    if c = '/' then cur.reverse :: splitComponents rest []
    else splitComponents rest (c :: cur)

/-- Rust `PathBuf::from` on a raw spelling: split on the separator. -/
def strToPath (s : String) : FsPath :=
  (splitComponents s.toList []).map String.mk

/-- Whether a raw spelling denotes an absolute path. -/
def isAbsSpelling (s : String) : Bool :=
  match s.toList with
  | c :: _ => c = '/'
  | [] => false

/-- Rust `Path::join` with a raw spelling: an absolute right operand replaces
the base. -/
def pathJoin (base : FsPath) (s : String) : FsPath :=
  if isAbsSpelling s then strToPath s else base ++ strToPath s

/-- Lookup in the system-include registry (bare filename to canonical path). -/
def regGet (reg : List (String × FsPath)) (k : String) : Option FsPath :=
  match reg with
  | [] => none
  | (k2, v) :: rest => if k = k2 then some v else regGet rest k

/-- The path normalizer `normalize_include_path` (src/main.rs lines 363-373):
look the directive's raw target spelling up in the system-include registry;
otherwise join the spelling onto the directory of the containing file and
canonicalize. -/
def normalize_include_path (w : World) (reg : List (String × FsPath)) (e : Nat) :
    Except RtErr FsPath :=
  match (w.data e).name with
  | none => .error .unwrapNone
  | some nm =>
    match regGet reg nm with
    | some p => .ok p
    | none => do
      let sp ← get_path w e
      .ok (w.canon (pathJoin sp.dropLast nm))

/-- Modelled from the spec (§4.6), as the basis of the refinement comparison
for the normalizer: the final path component of the raw target spelling (the
bare filename). -/
def spec_bareFilename (s : String) : Option String := (strToPath s).getLast?

/-- Insert into a `BTreeSet` of `OrdSymbol`s (src/main.rs lines 312-335):
ordering and equality use the start line only, and an insertion equal to an
existing element keeps the existing one (Rust `BTreeSet::insert`). -/
def ordInsert (k v : Nat) : List (Nat × Nat) → List (Nat × Nat)
  | [] => [(k, v)]
  | (k2, v2) :: rest =>
    if k < k2 then (k, v) :: (k2, v2) :: rest
    else if k = k2 then (k2, v2) :: rest
    else (k2, v2) :: ordInsert k v rest

/-- Start line of an entity as used by `OrdSymbol`
(`get_location().unwrap().get_file_location().line`). -/
def startLineOf (w : World) (x : Nat) : Except RtErr Nat :=
  match (w.data x).location with
  | some l => .ok l.fileLoc.line
  | none => .error .unwrapNone

/-- The emitted slice of one symbol (src/main.rs lines 443-456): source lines
`start-1 .. end-1` inclusive; indexing out of bounds (and the debug-mode
underflow at line 0) panics. -/
def sliceLines (src : List String) (a b : Nat) : Except RtErr (List String) :=
  if a = 0 then .error .lineOutOfRange
  else if a - 1 < b ∧ src.length < b then .error .lineOutOfRange
  else .ok ((src.drop (a - 1)).take (b - (a - 1)))

/-- Start line of an entity when it has a location, 0 otherwise (the total
companion of `startLineOf`, meaningful only on located entities). -/
def lineD (w : World) (x : Nat) : Nat :=
  match (w.data x).location with
  | some l => l.fileLoc.line
  | none => 0

/-- Key an entry by its start line for the `OrdSymbol` ordering. -/
def keyEntry (w : World) (x : Nat) : Except RtErr (Nat × Nat) :=
  match startLineOf w x with
  | .error e => .error e
  | .ok l => .ok (l, x)

/-- Key every entry by its start line, failing on the first located-less
entry (the `OrdSymbol` comparisons `unwrap` the location). -/
def keyEntries (w : World) : List Nat → Except RtErr (List (Nat × Nat))
  | [] => .ok []
  | x :: rest =>
    match keyEntry w x with
    | .error e => .error e
    | .ok p =>
      match keyEntries w rest with
      | .error e => .error e
      | .ok ps => .ok (p :: ps)

/-- The line-ordered `BTreeSet` built by inserting the keyed entries in
order. -/
def ordSet (keyed : List (Nat × Nat)) : List (Nat × Nat) :=
  keyed.foldl (fun acc p => ordInsert p.1 p.2 acc) []

/-- The emitted slice of one entity: its inclusive source line range. -/
def sliceOf (w : World) (src : List String) (x : Nat) :
    Except RtErr (List String) :=
  match (w.data x).range with
  | none => .error .unwrapNone
  | some rng => sliceLines src rng.rstart.fileLoc.line rng.rstop.fileLoc.line

/-- Append one entry's slice to the output (src/main.rs lines 442-456). -/
def emitSym (w : World) (src : List String) (out : List String) (p : Nat × Nat) :
    Except RtErr (List String) :=
  match sliceOf w src p.2 with
  | .error e => .error e
  | .ok lines => .ok (out ++ lines)

/-- The per-file emission (src/main.rs lines 420-456): insert the entries (in
insertion order: kept includes first, then the file's symbols) into the
line-ordered `BTreeSet`, then emit each surviving entry's inclusive line
range in ascending line order. -/
def emitFile (w : World) (entries : List Nat) (src : List String) :
    Except RtErr (List String) :=
  (keyEntries w entries) >>= fun keyed =>
    (ordSet keyed).foldlM (emitSym w src) []

/-- The include filter of the per-file emission (src/main.rs lines 422-431):
keep an inclusion directive when it is not an unparsable include and its
normalized target is itself a file with extracted symbols. -/
def keptIncludes (w : World) (reg : List (String × FsPath)) (unparsable : List Nat)
    (filesWithSyms : List FsPath) : List Nat → Except RtErr (List Nat)
  | [] => .ok []
  | i :: rest =>
    match normalize_include_path w reg i with
    | .error e => .error e
    | .ok p =>
      match keptIncludes w reg unparsable filesWithSyms rest with
      | .error e => .error e
      | .ok ks =>
        .ok (if !(unparsable.contains i) && filesWithSyms.contains p then
          i :: ks else ks)

/-- Emission of one processed file (src/main.rs lines 413-456): filter the
file's observed includes, then emit them together with the file's extracted
symbols through the shared line-ordered set. -/
def processFile (w : World) (reg : List (String × FsPath)) (unparsable : List Nat)
    (filesWithSyms : List FsPath) (incls : List Nat) (syms : List Nat)
    (src : List String) : Except RtErr (List String) := do
  let kept ← keptIncludes w reg unparsable filesWithSyms incls
  emitFile w (kept ++ syms) src

/-- Decidable equality on `Except` whose decision value reduces in the
kernel (the transported proof sits inside `isTrue`, where proof irrelevance
applies). -/
instance {ε α : Type} [DecidableEq ε] [DecidableEq α] :
    DecidableEq (Except ε α) := fun a b =>
  match a, b with
  | .error e1, .error e2 =>
    if h : e1 = e2 then .isTrue (by rw [h])
    else .isFalse (by intro hc; injection hc with h2; exact h h2)
  | .error _, .ok _ => .isFalse (by intro hc; exact Except.noConfusion hc)
  | .ok _, .error _ => .isFalse (by intro hc; exact Except.noConfusion hc)
  | .ok v1, .ok v2 =>
    if h : v1 = v2 then .isTrue (by rw [h])
    else .isFalse (by intro hc; injection hc with h2; exact h h2)

/-- Entity data with every attribute absent, used to build concrete worlds. -/
def dflt : EntityData where
  kind := .otherKind
  name := none
  location := none
  range := none
  definition := none
  typeDecl := none
  typedefDecl := none
  descendants := []
  is_definition := false
  is_declaration := false
  in_system_header := false

/-- File location in file `f` at line `l`. -/
def floc (f l : Nat) : FileLoc := ⟨some f, l, 1, 0⟩

/-- Source location whose file location and expansion location coincide. -/
def sloc (f l : Nat) : SrcLoc := ⟨floc f l, floc f l⟩

/-- World of the claim C4 counterexample: entity 0 has neither location nor
range. -/
def wC4 : World where
  data := fun _ => dflt
  filePath := fun _ => []
  canon := id

/-- World of the claim C4 witness: entity 1 has a resolved definition and a
location but no range. -/
def wC4b : World where
  data := fun e =>
    if e = 1 then
      { dflt with definition := some 2, location := some (sloc 0 3) }
    else dflt
  filePath := fun _ => ["", "a.c"]
  canon := id

/-- World of the claim C5 counterexample: entity 0 is an inclusion directive
spelled `sub/foo.h` inside file 0 (`/src/main.c`). -/
def wC5 : World where
  data := fun e =>
    if e = 0 then
      { dflt with kind := .inclDir, name := some "sub/foo.h",
                  location := some (sloc 0 4) }
    else dflt
  filePath := fun _ => ["", "src", "main.c"]
  canon := id

/-- Registry of the claim C5 counterexample: the bare filename `foo.h` maps
to the system path `/sys/foo.h`. -/
def regC5 : List (String × FsPath) := [("foo.h", ["", "sys", "foo.h"])]

/-- World of the claim C5 witness: entity 0 is a directive spelled `stdio.h`,
a registry key; entity 1 is a directive spelled `util.h`, absent from the
registry; both live in file 0 (`/src/main.c`). -/
def wC5b : World where
  data := fun e =>
    if e = 0 then
      { dflt with kind := .inclDir, name := some "stdio.h",
                  location := some (sloc 0 1) }
    else if e = 1 then
      { dflt with kind := .inclDir, name := some "util.h",
                  location := some (sloc 0 2) }
    else dflt
  filePath := fun _ => ["", "src", "main.c"]
  canon := id

/-- World of the claim C10 witness: entity 0 spans lines 1-5 of file 0 and
entity 1 is a macro definition recorded at line 2 of the same file. -/
def wC10 : World where
  data := fun e =>
    if e = 0 then
      { dflt with name := some "f", location := some (sloc 0 1),
                  range := some ⟨sloc 0 1, sloc 0 5⟩ }
    else if e = 1 then
      { dflt with kind := .macroDef, name := some "M",
                  location := some (sloc 0 2) }
    else dflt
  filePath := fun _ => ["", "a.c"]
  canon := id

/-- Bad kind for the macro-index range loop of `visit`: anything that is
neither a macro expansion nor an inclusion directive hits the
`panic!("Should not happen")` arm. -/
def badKind (k : EntityKind) : Prop := k ≠ .macroExp ∧ k ≠ .inclDir

/-- Whether a top-level child is recorded by the macro-index builder, and at
which expansion line: non-system entities of macro-expansion,
inclusion-directive or macro-definition kind that carry a location. -/
def qualLine (w : World) (c : Nat) : Option Nat :=
  if (w.data c).in_system_header then none
  else if isMacroKind (w.data c).kind then
    match (w.data c).location with
    | some loc => some loc.expLoc.line
    | none => none
  else none

/-- Lookup by line key in an ordered association list. -/
def lookupLine (m : List (Nat × Nat)) (l : Nat) : Option Nat :=
  match m with
  | [] => none
  | (k, v) :: rest => if l = k then some v else lookupLine rest l

/-- First-defined choice on options. -/
def optOr (a b : Option Nat) : Option Nat :=
  match a with
  | some x => some x
  | none => b

/-- World of the claim C9 witness: entities 1 and 2 are two distinct
non-system macro definitions whose expansion line is 5. -/
def wC9 : World where
  data := fun e =>
    if e = 1 then
      { dflt with kind := .macroDef, name := some "A", location := some (sloc 0 5) }
    else if e = 2 then
      { dflt with kind := .macroDef, name := some "B", location := some (sloc 0 5) }
    else dflt
  filePath := fun _ => ["", "a.c"]
  canon := id

/-- Reachability in the dependency graph as the spec describes it: a symbol
is a seed (a Global Symbol Table key whose name equals an entry name) or is
connected to a seed by a finite path of `deps` or `definitions` edges. -/
inductive ReachD (w : World) (targets : List String) (st : SymTable) : Nat → Prop where
  | seed (x : Nat) (hkey : x ∈ tableKeys st)
      (hname : ∃ n, (w.data x).name = some n ∧ targets.contains n = true) :
      ReachD w targets st x
  | step (x y : Nat) (d : SymbolDesc) (hx : ReachD w targets st x)
      (hlook : tableGet st x = some d)
      (hy : y ∈ d.deps ∨ y ∈ d.definitions) : ReachD w targets st y

/-- Reachability along exactly the edges the breadth-first loop follows: as
`ReachD`, but edges leave only non-terminal (non-macro, non-include)
symbols. -/
inductive ReachB (w : World) (targets : List String) (st : SymTable) : Nat → Prop where
  | seed (x : Nat) (hkey : x ∈ tableKeys st)
      (hname : ∃ n, (w.data x).name = some n ∧ targets.contains n = true) :
      ReachB w targets st x
  | step (x y : Nat) (d : SymbolDesc) (hx : ReachB w targets st x)
      (hterm : isTerminal w x = false) (hlook : tableGet st x = some d)
      (hy : y ∈ d.deps ∨ y ∈ d.definitions) : ReachB w targets st y

/-- A faithful iteration order for a Rust `HashSet`: it enumerates every
element exactly once. -/
def validEnum (enum2 : Finset Nat → List Nat) : Prop :=
  ∀ s : Finset Nat, (enum2 s).Nodup ∧ ∀ x, x ∈ enum2 s ↔ x ∈ s

/-- World of the claims C1/C2/C8 witnesses: entity 0 is a table key named
`main` depending on entity 1 (`helper`). -/
def wC1 : World where
  data := fun e =>
    if e = 0 then
      { dflt with name := some "main", location := some (sloc 0 1),
                  range := some ⟨sloc 0 1, sloc 0 2⟩ }
    else if e = 1 then
      { dflt with name := some "helper", location := some (sloc 0 3),
                  range := some ⟨sloc 0 3, sloc 0 4⟩ }
    else dflt
  filePath := fun _ => ["", "a.c"]
  canon := id

/-- Symbol table of the claims C1/C2/C8 witnesses. -/
def stC1 : SymTable := [(0, ⟨{1}, ∅⟩), (1, ⟨∅, ∅⟩)]

/-- World of the claim C3 witness: entities 1 and 2 are declarations sharing
the exact source location (file 0, line 7). -/
def wC3 : World where
  data := fun e =>
    if e = 1 ∨ e = 2 then
      { dflt with is_declaration := true, location := some (sloc 0 7) }
    else dflt
  filePath := fun _ => ["", "a.c"]
  canon := id

/-- Table of the claim C3 witness: the two co-located declarations carry
distinct `definitions` sets before merging. -/
def stC3 : SymTable := [(1, ⟨∅, {3}⟩), (2, ⟨∅, {4}⟩)]

/-- World of the claim C6 counterexample: entity 1 is an extracted symbol
spanning lines 2-3 of `/src/main.c` (file 0); entity 2 is an inclusion
directive of `util.h` on line 5 of the same file whose normalized target is
a file with extracted symbols. -/
def wC6 : World where
  data := fun e =>
    if e = 1 then
      { dflt with location := some (sloc 0 2),
                  range := some ⟨sloc 0 2, sloc 0 3⟩ }
    else if e = 2 then
      { dflt with kind := .inclDir, name := some "util.h",
                  location := some (sloc 0 5),
                  range := some ⟨sloc 0 5, sloc 0 5⟩ }
    else dflt
  filePath := fun _ => ["", "src", "main.c"]
  canon := id

/-- World of the claim C7 counterexample: entities 1 and 2 are two distinct
extracted symbols of the same file that start on line 2, with different end
lines. -/
def wC7 : World where
  data := fun e =>
    if e = 1 then
      { dflt with location := some (sloc 0 2),
                  range := some ⟨sloc 0 2, sloc 0 2⟩ }
    else if e = 2 then
      { dflt with location := some (sloc 0 2),
                  range := some ⟨sloc 0 2, sloc 0 3⟩ }
    else dflt
  filePath := fun _ => ["", "src", "main.c"]
  canon := id

theorem exbind_ok {ε α β : Type} (a : α) (f : α → Except ε β) :
    (Except.ok a >>= f) = f a := rfl

theorem exbind_err {ε α β : Type} (e : ε) (f : α → Except ε β) :
    ((Except.error e : Except ε α) >>= f) = .error e := rfl

theorem expure_eq {ε α : Type} (a : α) : (pure a : Except ε α) = .ok a := rfl

theorem get_path_error {w : World} {e : Nat} {err : RtErr}
    (h : get_path w e = .error err) : err = .unwrapNone := by
  unfold get_path at h
  split at h
  · injection h with h2; exact h2.symm
  · split at h
    · injection h with h2; exact h2.symm
    · exact absurd h (by simp)

theorem childStep_error {w : World} {tbl : List Nat} {acc : SymbolDesc} {c : Nat}
    {err : RtErr} (h : childStep w tbl acc c = .error err) : err = .unwrapNone := by
  unfold childStep at h
  cases hd : (w.data c).definition with
  | none => rw [hd] at h; simp at h
  | some d =>
    rw [hd] at h
    have h3 : (get_path w d).map (fun _ => childAdd w tbl acc d) = .error err := h
    cases hgp : get_path w d with
    | error e2 =>
      rw [hgp] at h3
      have h4 : e2 = err := by simpa [Except.map] using h3
      exact h4 ▸ get_path_error hgp
    | ok fp =>
      rw [hgp] at h3
      simp [Except.map] at h3

theorem foldl_childStep_error {w : World} {tbl : List Nat} :
    ∀ (ds : List Nat) (acc : SymbolDesc) (err : RtErr),
      ds.foldlM (childStep w tbl) acc = .error err → err = .unwrapNone := by
  intro ds
  induction ds with
  | nil =>
    intro acc err h
    rw [List.foldlM_nil, expure_eq] at h
    exact absurd h (by simp)
  | cons c rest ih =>
    intro acc err h
    rw [List.foldlM_cons] at h
    cases hc : childStep w tbl acc c with
    | error e2 =>
      rw [hc, exbind_err] at h
      injection h with h2
      exact h2 ▸ childStep_error hc
    | ok acc2 =>
      rw [hc, exbind_ok] at h
      exact ih acc2 err h

/-- Claim C4, counterexample: an entity with no source location and no source
range makes the dependency analyzer panic (`unwrap` on `None` at
`entity.get_range().unwrap()`) instead of returning a descriptor with empty
`deps` and `definitions`. -/
theorem C4_counterexample :
    (wC4.data 0).location = none ∧ (wC4.data 0).range = none ∧
      visit wC4 0 [] [] = .error RtErr.unwrapNone := by
  refine ⟨rfl, rfl, ?_⟩
  decide

/-- Claim C4 as amended: a symbol whose source range is unresolvable makes the
dependency analyzer fail with an `unwrap`-on-`None` panic instead of
returning a descriptor. -/
theorem C4_visit_no_range_panics (w : World) (e : Nat) (tbl : List Nat)
    (mIndex : List (Nat × Nat)) (h : (w.data e).range = none) :
    visit w e tbl mIndex = .error RtErr.unwrapNone := by
  unfold visit
  cases hf : (w.data e).descendants.foldlM (childStep w tbl) (visitInit w e) with
  | error er =>
    rw [exbind_err, foldl_childStep_error _ _ _ hf]
  | ok d1 =>
    rw [exbind_ok]
    unfold visitRest
    rw [h]

theorem C4_visit_no_range_panics_witness :
    visit wC4b 1 [2] [] = .error RtErr.unwrapNone :=
  C4_visit_no_range_panics wC4b 1 [2] [] (by decide)

/-- Claim C5, counterexample: the directive's bare filename `foo.h` is a key
of the System Include Registry, yet the normalizer does not return the
registry path: it looks the full spelling `sub/foo.h` up, misses, and falls
back to directory-relative resolution. -/
theorem C5_counterexample :
    spec_bareFilename "sub/foo.h" = some "foo.h" ∧
      regGet regC5 "foo.h" = some ["", "sys", "foo.h"] ∧
      normalize_include_path wC5 regC5 0 = .ok ["", "src", "sub", "foo.h"] ∧
      (["", "src", "sub", "foo.h"] : FsPath) ≠ ["", "sys", "foo.h"] := by
  refine ⟨by decide, by decide, by decide, by decide⟩

/-- Claim C5 as amended: path normalization returns the registry's canonical
path exactly when the directive's full raw target spelling is a key of the
System Include Registry; otherwise it returns the canonicalization of the raw
spelling joined to the directory of the file containing the directive. -/
theorem C5_normalize_characterization (w : World) (reg : List (String × FsPath))
    (e : Nat) (nm : String) (hname : (w.data e).name = some nm) :
    (∀ p, regGet reg nm = some p → normalize_include_path w reg e = .ok p) ∧
      (regGet reg nm = none → ∀ sp, get_path w e = .ok sp →
        normalize_include_path w reg e = .ok (w.canon (pathJoin sp.dropLast nm))) := by
  constructor
  · intro p hp
    unfold normalize_include_path
    simp only [hname, hp]
  · intro hmiss sp hsp
    unfold normalize_include_path
    simp only [hname, hmiss, hsp, exbind_ok]

theorem C5_normalize_characterization_witness :
    normalize_include_path wC5b [("stdio.h", ["", "usr", "stdio.h"])] 0 =
        .ok ["", "usr", "stdio.h"] ∧
      normalize_include_path wC5b [("stdio.h", ["", "usr", "stdio.h"])] 1 =
        .ok ["", "src", "util.h"] := by
  constructor
  · exact (C5_normalize_characterization wC5b _ 0 "stdio.h" (by decide)).1
      ["", "usr", "stdio.h"] (by decide)
  · have h2 := (C5_normalize_characterization wC5b
      [("stdio.h", ["", "usr", "stdio.h"])] 1 "util.h" (by decide)).2
      (by decide) ["", "src", "main.c"] (by decide)
    exact h2.trans (by decide)

theorem childStep_ok {w : World} {tbl : List Nat} {acc : SymbolDesc} {c : Nat}
    (h : ∀ d2, (w.data c).definition = some d2 → ∃ fp, get_path w d2 = .ok fp) :
    ∃ acc2, childStep w tbl acc c = .ok acc2 := by
  cases hd : (w.data c).definition with
  | none => exact ⟨acc, by unfold childStep; rw [hd]⟩
  | some d2 =>
    obtain ⟨fp, hfp⟩ := h d2 hd
    refine ⟨childAdd w tbl acc d2, ?_⟩
    unfold childStep
    rw [hd]
    show (get_path w d2).map (fun _ => childAdd w tbl acc d2) = _
    rw [hfp]
    rfl

theorem foldl_childStep_ok {w : World} {tbl : List Nat} :
    ∀ (ds : List Nat) (acc : SymbolDesc),
      (∀ c ∈ ds, ∀ d2, (w.data c).definition = some d2 →
        ∃ fp, get_path w d2 = .ok fp) →
      ∃ acc2, ds.foldlM (childStep w tbl) acc = .ok acc2 := by
  intro ds
  induction ds with
  | nil => exact fun acc _ => ⟨acc, rfl⟩
  | cons c rest ih =>
    intro acc h
    obtain ⟨acc2, hc⟩ := childStep_ok (h c (by simp))
    rw [List.foldlM_cons, hc, exbind_ok]
    exact ih acc2 fun c2 hc2 => h c2 (by simp [hc2])

theorem rangeStep_eq {w : World} {e : Nat} {p : Nat × Nat} {cloc eloc : SrcLoc}
    (hc : (w.data p.2).location = some cloc)
    (he : (w.data e).location = some eloc) (acc : SymbolDesc × List Nat) :
    rangeStep w e acc p = rangeStepCore w acc p cloc eloc := by
  unfold rangeStep
  rw [hc, he]

theorem foldl_rangeStep_bad {w : World} {e : Nat} {eloc : SrcLoc}
    (he : (w.data e).location = some eloc) :
    ∀ (l : List (Nat × Nat)) (acc : SymbolDesc × List Nat),
      (∀ p ∈ l, ((w.data p.2).location).isSome) →
      (∃ p ∈ l, ∃ cloc, (w.data p.2).location = some cloc ∧
        cloc.fileLoc.file = eloc.fileLoc.file ∧ badKind (w.data p.2).kind) →
      l.foldlM (rangeStep w e) acc = .error .shouldNotHappen := by
  intro l
  induction l with
  | nil => exact fun acc _ hbad => absurd hbad (by simp)
  | cons p rest ih =>
    intro acc hloc hbad
    rw [List.foldlM_cons]
    obtain ⟨cloc, hcloc⟩ := Option.isSome_iff_exists.mp (hloc p (by simp))
    have hrest : ∀ q ∈ rest, ((w.data q.2).location).isSome :=
      fun q hq => hloc q (by simp [hq])
    rw [rangeStep_eq hcloc he acc]
    rcases hbad with ⟨q, hq, cloc2, hq1, hq2, hq3⟩
    rcases List.mem_cons.mp hq with hqp | hqrest
    · subst hqp
      rw [hq1] at hcloc
      injection hcloc with hcc
      subst hcc
      unfold rangeStepCore
      rw [if_pos hq2]
      cases hk : (w.data q.2).kind <;>
        first
          | (rw [hk] at hq3; exact absurd rfl hq3.1)
          | (rw [hk] at hq3; exact absurd rfl hq3.2)
          | rfl
    · unfold rangeStepCore
      by_cases hf2 : cloc.fileLoc.file = eloc.fileLoc.file
      · rw [if_pos hf2]
        cases hk : (w.data p.2).kind <;>
          first
            | rfl
            | exact ih _ hrest ⟨q, hqrest, cloc2, hq1, hq2, hq3⟩
      · rw [if_neg hf2]
        exact ih acc hrest ⟨q, hqrest, cloc2, hq1, hq2, hq3⟩

/-- Claim C10: a macro-definition entity recorded in the Macro Index that
falls within an analyzed symbol's inclusive line range and lies in the same
file makes the dependency analyzer hit the `panic!("Should not happen")`
branch: dependency analysis aborts instead of recording or skipping it. -/
theorem C10_macroDef_in_range_panics (w : World) (e : Nat) (tbl : List Nat)
    (mIndex : List (Nat × Nat)) (rng : SrcRange) (eloc cloc : SrcLoc)
    (l c : Nat)
    (hrange : (w.data e).range = some rng)
    (heloc : (w.data e).location = some eloc)
    (hmem : (l, c) ∈ mIndex)
    (hla : rng.rstart.fileLoc.line ≤ l)
    (hlb : l ≤ rng.rstop.fileLoc.line)
    (hcloc : (w.data c).location = some cloc)
    (hfile : cloc.fileLoc.file = eloc.fileLoc.file)
    (hkind : (w.data c).kind = .macroDef)
    (hlocs : ∀ p ∈ mIndex, ((w.data p.2).location).isSome)
    (hdesc : ∀ cd ∈ (w.data e).descendants, ∀ d2,
      (w.data cd).definition = some d2 → ∃ fp, get_path w d2 = .ok fp) :
    visit w e tbl mIndex = .error RtErr.shouldNotHappen := by
  unfold visit
  obtain ⟨d1, hf⟩ := foldl_childStep_ok (w.data e).descendants (visitInit w e) hdesc
  rw [hf, exbind_ok]
  unfold visitRest
  rw [hrange]
  show visitRange w e mIndex d1 rng = _
  have hmemf : (l, c) ∈ mIndex.filter
      (fun p => rng.rstart.fileLoc.line ≤ p.1 && p.1 ≤ rng.rstop.fileLoc.line) :=
    List.mem_filter.mpr ⟨hmem, by simp [hla, hlb]⟩
  have hlocs2 : ∀ p ∈ mIndex.filter
      (fun p => rng.rstart.fileLoc.line ≤ p.1 && p.1 ≤ rng.rstop.fileLoc.line),
      ((w.data p.2).location).isSome :=
    fun p hp => hlocs p (List.mem_of_mem_filter hp)
  have hbad : badKind (w.data c).kind := by
    rw [hkind]; exact ⟨by simp, by simp⟩
  unfold visitRange
  rw [foldl_rangeStep_bad heloc _ _ hlocs2 ⟨(l, c), hmemf, cloc, hcloc, hfile, hbad⟩,
    exbind_err]

theorem C10_macroDef_in_range_panics_witness :
    visit wC10 0 [] [(2, 1)] = .error RtErr.shouldNotHappen :=
  C10_macroDef_in_range_panics wC10 0 [] [(2, 1)] ⟨sloc 0 1, sloc 0 5⟩
    (sloc 0 1) (sloc 0 2) 2 1 (by decide) (by decide) (by decide) (by decide)
    (by decide) (by decide) (by decide) (by decide) (by decide)
    (fun cd hcd => absurd hcd (by simp [wC10, dflt]))

theorem mem_btInsert {k v : Nat} {q : Nat × Nat} :
    ∀ {m : List (Nat × Nat)}, q ∈ btInsert k v m → q = (k, v) ∨ q ∈ m := by
  intro m
  induction m with
  | nil => intro h; simp [btInsert] at h; exact Or.inl h
  | cons p rest ih =>
    intro h
    obtain ⟨k2, v2⟩ := p
    unfold btInsert at h
    by_cases h1 : k < k2
    · rw [if_pos h1] at h
      rcases List.mem_cons.mp h with h2 | h2
      · exact Or.inl h2
      · exact Or.inr h2
    · rw [if_neg h1] at h
      by_cases h2 : k = k2
      · rw [if_pos h2] at h
        rcases List.mem_cons.mp h with h3 | h3
        · exact Or.inl h3
        · exact Or.inr (List.mem_cons_of_mem _ h3)
      · rw [if_neg h2] at h
        rcases List.mem_cons.mp h with h3 | h3
        · exact Or.inr (h3 ▸ List.mem_cons_self _ _)
        · rcases ih h3 with h4 | h4
          · exact Or.inl h4
          · exact Or.inr (List.mem_cons_of_mem _ h4)

theorem btInsert_pairwise {k v : Nat} :
    ∀ {m : List (Nat × Nat)}, m.Pairwise (fun p q => p.1 < q.1) →
      (btInsert k v m).Pairwise (fun p q => p.1 < q.1) := by
  intro m
  induction m with
  | nil => intro _; simp [btInsert]
  | cons p rest ih =>
    intro h
    obtain ⟨k2, v2⟩ := p
    rw [List.pairwise_cons] at h
    obtain ⟨h1, h2⟩ := h
    unfold btInsert
    by_cases hc : k < k2
    · rw [if_pos hc]
      refine List.Pairwise.cons ?_ (List.Pairwise.cons h1 h2)
      intro q hq
      rcases List.mem_cons.mp hq with h3 | h3
      · rw [h3]; exact hc
      · exact lt_trans hc (h1 q h3)
    · rw [if_neg hc]
      by_cases he : k = k2
      · rw [if_pos he]
        exact List.Pairwise.cons (fun q hq => he ▸ h1 q hq) h2
      · rw [if_neg he]
        refine List.Pairwise.cons ?_ (ih h2)
        intro q hq
        rcases mem_btInsert hq with h3 | h3
        · rw [h3]; simp; omega
        · exact h1 q h3

theorem lookupLine_btInsert :
    ∀ (m : List (Nat × Nat)) (k v l : Nat),
      lookupLine (btInsert k v m) l = if l = k then some v else lookupLine m l := by
  intro m
  induction m with
  | nil => intro k v l; simp [btInsert, lookupLine]
  | cons p rest ih =>
    intro k v l
    obtain ⟨k2, v2⟩ := p
    by_cases h1 : k < k2
    · simp only [btInsert, if_pos h1, lookupLine]
    · by_cases h2 : k = k2
      · simp only [btInsert, if_neg h1, if_pos h2, lookupLine]
        subst h2
        by_cases h3 : l = k
        · simp [h3]
        · simp [h3]
      · simp only [btInsert, if_neg h1, if_neg h2, lookupLine]
        by_cases h3 : l = k2
        · rw [if_pos h3, if_neg (by omega : ¬ l = k), if_pos h3]
        · rw [if_neg h3, if_neg h3, ih]

theorem mem_iff_lookupLine {l c : Nat} :
    ∀ {m : List (Nat × Nat)}, m.Pairwise (fun p q => p.1 ≠ q.1) →
      ((l, c) ∈ m ↔ lookupLine m l = some c) := by
  intro m
  induction m with
  | nil => intro _; simp [lookupLine]
  | cons p rest ih =>
    intro h
    obtain ⟨k2, v2⟩ := p
    rw [List.pairwise_cons] at h
    obtain ⟨h1, h2⟩ := h
    unfold lookupLine
    constructor
    · intro hm
      rcases List.mem_cons.mp hm with h3 | h3
      · cases h3
        rw [if_pos rfl]
      · have hne : l ≠ k2 := fun he => (h1 (l, c) h3) (by rw [he])
        rw [if_neg hne]
        exact (ih h2).mp h3
    · intro hl
      by_cases he : l = k2
      · rw [if_pos he] at hl
        injection hl with hv
        exact List.mem_cons.mpr (Or.inl (by rw [he, hv]))
      · rw [if_neg he] at hl
        exact List.mem_cons.mpr (Or.inr ((ih h2).mpr hl))

theorem macroIndexStep_some {w : World} {c l : Nat} (h : qualLine w c = some l)
    (m : List (Nat × Nat)) : macroIndexStep w m c = .ok (btInsert l c m) := by
  unfold qualLine at h
  unfold macroIndexStep
  by_cases hs : (w.data c).in_system_header
  · rw [if_pos hs] at h; exact absurd h (by simp)
  · rw [if_neg hs] at h ⊢
    by_cases hk : isMacroKind (w.data c).kind
    · rw [if_pos hk] at h ⊢
      cases hl : (w.data c).location with
      | none => rw [hl] at h; exact absurd h (by simp)
      | some loc =>
        rw [hl] at h
        have h3 : some loc.expLoc.line = some l := h
        injection h3 with h2
        show Except.ok (btInsert loc.expLoc.line c m) = Except.ok (btInsert l c m)
        rw [h2]
    · rw [if_neg hk] at h; exact absurd h (by simp)

theorem macroIndexStep_none {w : World} {c : Nat} (h : qualLine w c = none)
    {m m1 : List (Nat × Nat)} (hstep : macroIndexStep w m c = .ok m1) : m1 = m := by
  unfold qualLine at h
  unfold macroIndexStep at hstep
  by_cases hs : (w.data c).in_system_header
  · rw [if_pos hs] at hstep; injection hstep with h2; exact h2.symm
  · rw [if_neg hs] at h hstep
    by_cases hk : isMacroKind (w.data c).kind
    · rw [if_pos hk] at h hstep
      cases hl : (w.data c).location with
      | none => rw [hl] at hstep; exact absurd hstep (by simp)
      | some loc => rw [hl] at h; exact absurd h (by simp)
    · rw [if_neg hk] at hstep; injection hstep with h2; exact h2.symm

theorem foldl_macroIndex_pairwise {w : World} :
    ∀ (children : List Nat) (m0 m : List (Nat × Nat)),
      m0.Pairwise (fun p q => p.1 < q.1) →
      children.foldlM (macroIndexStep w) m0 = .ok m →
      m.Pairwise (fun p q => p.1 < q.1) := by
  intro children
  induction children with
  | nil =>
    intro m0 m h0 h
    rw [List.foldlM_nil, expure_eq] at h
    injection h with h2
    exact h2 ▸ h0
  | cons c cs ih =>
    intro m0 m h0 h
    rw [List.foldlM_cons] at h
    cases hstep : macroIndexStep w m0 c with
    | error er => rw [hstep, exbind_err] at h; exact absurd h (by simp)
    | ok m1 =>
      rw [hstep, exbind_ok] at h
      have hm1 : m1.Pairwise (fun p q => p.1 < q.1) := by
        cases hq : qualLine w c with
        | none => exact (macroIndexStep_none hq hstep) ▸ h0
        | some l2 =>
          rw [macroIndexStep_some hq m0] at hstep
          injection hstep with h2
          exact h2 ▸ btInsert_pairwise h0
      exact ih m1 m hm1 h

theorem foldl_macroIndex_lookup {w : World} :
    ∀ (children : List Nat) (m0 m : List (Nat × Nat)) (l : Nat),
      children.foldlM (macroIndexStep w) m0 = .ok m →
      lookupLine m l =
        optOr ((children.filter fun c => qualLine w c = some l).getLast?)
          (lookupLine m0 l) := by
  intro children
  induction children with
  | nil =>
    intro m0 m l h
    rw [List.foldlM_nil, expure_eq] at h
    injection h with h2
    subst h2
    simp [optOr]
  | cons c cs ih =>
    intro m0 m l h
    rw [List.foldlM_cons] at h
    cases hstep : macroIndexStep w m0 c with
    | error er => rw [hstep, exbind_err] at h; exact absurd h (by simp)
    | ok m1 =>
      rw [hstep, exbind_ok] at h
      have hrec := ih m1 m l h
      cases hq : qualLine w c with
      | none =>
        have hm1 : m1 = m0 := macroIndexStep_none hq hstep
        have hfilter : (c :: cs).filter (fun c2 => qualLine w c2 = some l) =
            cs.filter (fun c2 => qualLine w c2 = some l) :=
          List.filter_cons_of_neg (by simp [hq])
        rw [hfilter, hrec, hm1]
      | some l2 =>
        have hm1 : m1 = btInsert l2 c m0 := by
          rw [macroIndexStep_some hq m0] at hstep
          injection hstep with h2
          exact h2.symm
        by_cases hl : l2 = l
        · subst hl
          have hfilter : (c :: cs).filter (fun c2 => qualLine w c2 = some l2) =
              c :: cs.filter (fun c2 => qualLine w c2 = some l2) :=
            List.filter_cons_of_pos (by simp [hq])
          rw [hfilter, hrec, hm1, lookupLine_btInsert, if_pos rfl]
          cases hfc : cs.filter (fun c2 => qualLine w c2 = some l2) with
          | nil => simp [hfc, optOr]
          | cons d ds =>
            rw [show ((c :: d :: ds).getLast?) = (d :: ds).getLast? from
              List.getLast?_append_of_ne_nil [c] (by simp)]
            obtain ⟨x, hx⟩ := Option.isSome_iff_exists.mp
              (List.getLast?_isSome.mpr (by simp : (d :: ds) ≠ []))
            rw [hx]
            simp [optOr]
        · have hfilter : (c :: cs).filter (fun c2 => qualLine w c2 = some l) =
              cs.filter (fun c2 => qualLine w c2 = some l) :=
            List.filter_cons_of_neg (by simp [hq, hl])
          rw [hfilter, hrec, hm1, lookupLine_btInsert,
            if_neg (fun he => hl he.symm)]

theorem buildMacroIndex_lookup {w : World} {children : List Nat}
    {m : List (Nat × Nat)} (h : buildMacroIndex w children = .ok m) (l : Nat) :
    lookupLine m l = (children.filter fun c => qualLine w c = some l).getLast? := by
  have h2 := foldl_macroIndex_lookup children [] m l h
  rw [h2]
  cases (children.filter fun c => qualLine w c = some l).getLast? <;>
    simp [optOr, lookupLine]

theorem buildMacroIndex_pairwise_ne {w : World} {children : List Nat}
    {m : List (Nat × Nat)} (h : buildMacroIndex w children = .ok m) :
    m.Pairwise (fun p q => p.1 ≠ q.1) :=
  (foldl_macroIndex_pairwise children [] m (by simp) h).imp
    (fun h2 => Nat.ne_of_lt h2)

/-- Claim C9: the Macro Index retains at most one entity per expansion line;
when two distinct qualifying entities (non-system macro definitions, macro
expansions or inclusion directives) share an expansion line, the one
enumerated later replaces the earlier, and the earlier appears nowhere in the
index, so the dependency analyzer never sees it. -/
theorem C9_macro_index_last_wins (w : World) (children : List Nat)
    (m : List (Nat × Nat)) (hok : buildMacroIndex w children = .ok m)
    (hnd : children.Nodup) :
    (∀ l c c2, (l, c) ∈ m → (l, c2) ∈ m → c = c2) ∧
    (∀ pre c1 mid c2 post l, children = pre ++ c1 :: mid ++ c2 :: post →
      qualLine w c1 = some l → qualLine w c2 = some l →
      ∀ l2, (l2, c1) ∉ m) := by
  have hne := buildMacroIndex_pairwise_ne hok
  constructor
  · intro l c c2 h1 h2
    have e1 := (mem_iff_lookupLine hne).mp h1
    have e2 := (mem_iff_lookupLine hne).mp h2
    rw [e1] at e2
    injection e2 with h3
  · intro pre c1 mid c2 post l hsplit hq1 hq2 l2 hmem
    have hl2 := (mem_iff_lookupLine hne).mp hmem
    rw [buildMacroIndex_lookup hok l2] at hl2
    have hc1mem : c1 ∈ children.filter (fun c => qualLine w c = some l2) :=
      List.mem_of_mem_getLast? hl2
    have hql2 : qualLine w c1 = some l2 := by
      have h4 := (List.mem_filter.mp hc1mem).2
      simpa using h4
    have hll : l2 = l := by
      rw [hq1] at hql2
      injection hql2 with h3
      exact h3.symm
    subst hll
    subst hsplit
    rw [List.filter_append,
      List.filter_cons_of_pos (by simp only [decide_eq_true_eq]; exact hq2),
      List.getLast?_append_of_ne_nil _ (List.cons_ne_nil _ _)] at hl2
    have hc1B : c1 ∈ c2 :: post := by
      rcases List.mem_cons.mp (List.mem_of_mem_getLast? hl2) with h5 | h5
      · exact h5 ▸ List.mem_cons_self _ _
      · exact List.mem_cons_of_mem _ (List.mem_of_mem_filter h5)
    have hdisj := (List.nodup_append.mp hnd).2.2
    exact hdisj (List.mem_append_right pre (List.mem_cons_self _ _)) hc1B

theorem C9_macro_index_last_wins_witness :
    ((5, 1) : Nat × Nat) ∉ [((5, 2) : Nat × Nat)] :=
  (C9_macro_index_last_wins wC9 [1, 2] [(5, 2)] (by decide) (by decide)).2
    [] 1 [] 2 [] 5 rfl (by decide) (by decide) 5

theorem tableGet_mem : ∀ {st : SymTable} {e : Nat} {d : SymbolDesc},
    tableGet st e = some d → (e, d) ∈ st := by
  intro st
  induction st with
  | nil => intro e d h; simp [tableGet] at h
  | cons p rest ih =>
    intro e d h
    obtain ⟨k, v⟩ := p
    unfold tableGet at h
    by_cases he : e = k
    · rw [if_pos he] at h
      injection h with h2
      exact List.mem_cons.mpr (Or.inl (by rw [he, h2]))
    · rw [if_neg he] at h
      exact List.mem_cons.mpr (Or.inr (ih h))

theorem mem_tableGet : ∀ {st : SymTable} {e : Nat} {d : SymbolDesc},
    (tableKeys st).Nodup → (e, d) ∈ st → tableGet st e = some d := by
  intro st
  induction st with
  | nil => intro e d _ h; simp at h
  | cons p rest ih =>
    intro e d hnd h
    obtain ⟨k, v⟩ := p
    rw [show tableKeys ((k, v) :: rest) = k :: tableKeys rest from rfl,
      List.nodup_cons] at hnd
    unfold tableGet
    rcases List.mem_cons.mp h with h2 | h2
    · injection h2 with h3 h4
      rw [if_pos h3, h4]
    · by_cases he : e = k
      · exact absurd (he ▸ List.mem_map.mpr ⟨(e, d), h2, rfl⟩) hnd.1
      · rw [if_neg he]
        exact ih hnd.2 h2

theorem tableGet_none : ∀ {st : SymTable} {e : Nat},
    tableGet st e = none ↔ e ∉ tableKeys st := by
  intro st
  induction st with
  | nil => intro e; simp [tableGet, tableKeys]
  | cons p rest ih =>
    intro e
    obtain ⟨k, v⟩ := p
    rw [show tableKeys ((k, v) :: rest) = k :: tableKeys rest from rfl]
    unfold tableGet
    by_cases he : e = k
    · rw [if_pos he]
      simp [he]
    · rw [if_neg he]
      simp [he, ih]

theorem tableGet_perm {st stp : SymTable} (hperm : stp.Perm st)
    (hnd : (tableKeys st).Nodup) (e : Nat) : tableGet stp e = tableGet st e := by
  have hndp : (tableKeys stp).Nodup := ((hperm.map Prod.fst).nodup_iff).mpr hnd
  cases h : tableGet st e with
  | some d => exact mem_tableGet hndp (hperm.mem_iff.mpr (tableGet_mem h))
  | none =>
    rw [tableGet_none]
    intro hin
    exact (tableGet_none.mp h) ((hperm.map Prod.fst).mem_iff.mp hin)

theorem mem_phase1 {w : World} :
    ∀ (st : SymTable) (t : FileLoc → Finset Nat), phase1 w st = .ok t →
      ∀ (l : FileLoc) (x : Nat),
        x ∈ t l ↔ ∃ q ∈ st, (w.data q.1).is_declaration = true ∧
          locKey w q.1 = some l ∧ x ∈ q.2.definitions := by
  intro st
  induction st with
  | nil =>
    intro t h l x
    unfold phase1 at h
    injection h with h2
    subst h2
    simp
  | cons p rest ih =>
    intro t h l x
    obtain ⟨e, d⟩ := p
    unfold phase1 at h
    cases hrec : phase1 w rest with
    | error er => rw [hrec, exbind_err] at h; exact absurd h (by simp)
    | ok t2 =>
      rw [hrec, exbind_ok] at h
      by_cases hd : (w.data e).is_declaration
      · rw [if_pos hd] at h
        cases hlk : locKey w e with
        | none => rw [hlk] at h; exact absurd h (by simp)
        | some l2 =>
          rw [hlk] at h
          have h4 : Except.ok (fun l3 =>
              if l3 = l2 then d.definitions ∪ t2 l3 else t2 l3) = Except.ok t := h
          injection h4 with h5
          subst h5
          constructor
          · intro hx
            have hx2 : x ∈ (if l = l2 then d.definitions ∪ t2 l else t2 l) := hx
            by_cases hll : l = l2
            · rw [if_pos hll] at hx2
              rcases Finset.mem_union.mp hx2 with h6 | h6
              · exact ⟨(e, d), List.mem_cons_self _ _, hd, by rw [hlk, hll], h6⟩
              · obtain ⟨q, hq1, hq2, hq3, hq4⟩ := (ih t2 hrec l x).mp h6
                exact ⟨q, List.mem_cons_of_mem _ hq1, hq2, hq3, hq4⟩
            · rw [if_neg hll] at hx2
              obtain ⟨q, hq1, hq2, hq3, hq4⟩ := (ih t2 hrec l x).mp hx2
              exact ⟨q, List.mem_cons_of_mem _ hq1, hq2, hq3, hq4⟩
          · rintro ⟨q, hq1, hq2, hq3, hq4⟩
            show x ∈ (if l = l2 then d.definitions ∪ t2 l else t2 l)
            rcases List.mem_cons.mp hq1 with h6 | h6
            · subst h6
              rw [hlk] at hq3
              injection hq3 with h7
              rw [if_pos h7.symm]
              exact Finset.mem_union_left _ hq4
            · have h8 : x ∈ t2 l := (ih t2 hrec l x).mpr ⟨q, h6, hq2, hq3, hq4⟩
              by_cases hll : l = l2
              · rw [if_pos hll]
                exact Finset.mem_union_right _ h8
              · rw [if_neg hll]
                exact h8
      · rw [if_neg hd] at h
        injection h with h5
        subst h5
        rw [ih t2 hrec l x]
        constructor
        · rintro ⟨q, hq1, hq2, hq3, hq4⟩
          exact ⟨q, List.mem_cons_of_mem _ hq1, hq2, hq3, hq4⟩
        · rintro ⟨q, hq1, hq2, hq3, hq4⟩
          rcases List.mem_cons.mp hq1 with h6 | h6
          · exact absurd (h6 ▸ hq2) (by simp [hd])
          · exact ⟨q, h6, hq2, hq3, hq4⟩

theorem phase2_tableGet_decl {w : World} {t : FileLoc → Finset Nat} :
    ∀ (st st2 : SymTable), phase2 w t st = .ok st2 →
      ∀ (e : Nat) (d : SymbolDesc) (l : FileLoc), tableGet st e = some d →
        (w.data e).is_declaration = true → locKey w e = some l →
        tableGet st2 e = some { d with definitions := d.definitions ∪ t l } := by
  intro st
  induction st with
  | nil => intro st2 h e d l hg; simp [tableGet] at hg
  | cons p rest ih =>
    intro st2 h e d l hg hd hl
    obtain ⟨e2, d2⟩ := p
    unfold phase2 at h
    cases hrec : phase2 w t rest with
    | error er => rw [hrec, exbind_err] at h; exact absurd h (by simp)
    | ok rest2 =>
      rw [hrec, exbind_ok] at h
      unfold tableGet at hg
      by_cases he : e = e2
      · rw [if_pos he] at hg
        injection hg with hg2
        rw [if_pos (he ▸ hd)] at h
        cases hlk2 : locKey w e2 with
        | none => rw [hlk2] at h; exact absurd h (by simp)
        | some l2 =>
          rw [hlk2] at h
          have h4 : Except.ok ((e2, { d2 with
              definitions := d2.definitions ∪ t l2 }) :: rest2) =
            Except.ok st2 := h
          injection h4 with h5
          have h6 : l2 = l := by
            rw [he, hlk2] at hl
            injection hl with h7
          subst h5
          unfold tableGet
          rw [if_pos he, h6, hg2]
      · rw [if_neg he] at hg
        have hrec2 := ih rest2 hrec e d l hg hd hl
        by_cases hd2 : (w.data e2).is_declaration
        · rw [if_pos hd2] at h
          cases hlk2 : locKey w e2 with
          | none => rw [hlk2] at h; exact absurd h (by simp)
          | some l3 =>
            rw [hlk2] at h
            have h4 : Except.ok ((e2, { d2 with
                definitions := d2.definitions ∪ t l3 }) :: rest2) =
              Except.ok st2 := h
            injection h4 with h5
            subst h5
            unfold tableGet
            rw [if_neg he]
            exact hrec2
        · rw [if_neg hd2] at h
          injection h with h5
          subst h5
          unfold tableGet
          rw [if_neg he]
          exact hrec2

/-- Claim C3: after the two-phase merge, any two declaration-kind symbols at
the same exact source location have identical `definitions` sets, and the
resulting set for a symbol does not depend on the order in which the table
entries (one per translation-unit pass) were processed. -/
theorem C3_merge_converges (w : World) (st st2 : SymTable)
    (hok : mergeDefs w st = .ok st2) (e1 e2 : Nat) (d1 d2 : SymbolDesc)
    (l : FileLoc)
    (h1 : tableGet st e1 = some d1) (h2 : tableGet st e2 = some d2)
    (hd1 : (w.data e1).is_declaration = true)
    (hd2 : (w.data e2).is_declaration = true)
    (hl1 : locKey w e1 = some l) (hl2 : locKey w e2 = some l) :
    ∃ d1b d2b, tableGet st2 e1 = some d1b ∧ tableGet st2 e2 = some d2b ∧
      d1b.definitions = d2b.definitions ∧
      ∀ stp st2p, stp.Perm st → (tableKeys st).Nodup →
        mergeDefs w stp = .ok st2p →
        ∃ d1c, tableGet st2p e1 = some d1c ∧
          d1c.definitions = d1b.definitions := by
  unfold mergeDefs at hok
  cases hp1 : phase1 w st with
  | error er => rw [hp1, exbind_err] at hok; exact absurd hok (by simp)
  | ok t =>
    rw [hp1, exbind_ok] at hok
    have hsub1 : d1.definitions ⊆ t l := fun x hx =>
      (mem_phase1 st t hp1 l x).mpr ⟨(e1, d1), tableGet_mem h1, hd1, hl1, hx⟩
    have hsub2 : d2.definitions ⊆ t l := fun x hx =>
      (mem_phase1 st t hp1 l x).mpr ⟨(e2, d2), tableGet_mem h2, hd2, hl2, hx⟩
    have hg1 := phase2_tableGet_decl st st2 hok e1 d1 l h1 hd1 hl1
    have hg2 := phase2_tableGet_decl st st2 hok e2 d2 l h2 hd2 hl2
    refine ⟨_, _, hg1, hg2, ?_, ?_⟩
    · show d1.definitions ∪ t l = d2.definitions ∪ t l
      rw [Finset.union_eq_right.mpr hsub1, Finset.union_eq_right.mpr hsub2]
    · intro stp st2p hperm hnd hokp
      unfold mergeDefs at hokp
      cases hp1p : phase1 w stp with
      | error er => rw [hp1p, exbind_err] at hokp; exact absurd hokp (by simp)
      | ok tp =>
        rw [hp1p, exbind_ok] at hokp
        have hteq : tp l = t l := Finset.ext fun x => by
          rw [mem_phase1 stp tp hp1p l x, mem_phase1 st t hp1 l x]
          constructor
          · rintro ⟨q, hq, hrest⟩
            exact ⟨q, hperm.mem_iff.mp hq, hrest⟩
          · rintro ⟨q, hq, hrest⟩
            exact ⟨q, hperm.mem_iff.mpr hq, hrest⟩
        have hgp : tableGet stp e1 = some d1 :=
          (tableGet_perm hperm hnd e1).trans h1
        have hg1p := phase2_tableGet_decl stp st2p hokp e1 d1 l hgp hd1 hl1
        exact ⟨_, hg1p, by simp [hteq]⟩

theorem C3_merge_converges_witness :
    ∃ d1b d2b,
      tableGet [(1, (⟨∅, {3, 4}⟩ : SymbolDesc)), (2, ⟨∅, {3, 4}⟩)] 1 = some d1b ∧
      tableGet [(1, (⟨∅, {3, 4}⟩ : SymbolDesc)), (2, ⟨∅, {3, 4}⟩)] 2 = some d2b ∧
      d1b.definitions = d2b.definitions ∧
      ∀ stp st2p, stp.Perm stC3 → (tableKeys stC3).Nodup →
        mergeDefs wC3 stp = .ok st2p →
        ∃ d1c, tableGet st2p 1 = some d1c ∧
          d1c.definitions = d1b.definitions :=
  C3_merge_converges wC3 stC3 [(1, ⟨∅, {3, 4}⟩), (2, ⟨∅, {3, 4}⟩)] (by decide)
    1 2 ⟨∅, {3}⟩ ⟨∅, {4}⟩ (floc 0 7) (by decide) (by decide) (by decide)
    (by decide) (by decide) (by decide)

theorem seedQueue_mem {w : World} {targets : List String} {st : SymTable}
    {x : Nat} (h : x ∈ seedQueue w targets st) :
    x ∈ tableKeys st ∧
      ∃ n, (w.data x).name = some n ∧ targets.contains n = true := by
  unfold seedQueue at h
  have h2 := List.mem_filter.mp h
  refine ⟨h2.1, ?_⟩
  have h3 := h2.2
  cases hn : (w.data x).name with
  | none => rw [hn] at h3; exact absurd h3 (by simp)
  | some n =>
    rw [hn] at h3
    exact ⟨n, rfl, h3⟩

theorem mem_seedQueue {w : World} {targets : List String} {st : SymTable}
    {x : Nat} (hk : x ∈ tableKeys st) {n : String}
    (hn : (w.data x).name = some n) (hc : targets.contains n = true) :
    x ∈ seedQueue w targets st := by
  unfold seedQueue
  refine List.mem_filter.mpr ⟨hk, ?_⟩
  rw [hn]
  exact hc

theorem tableGet_isSome_of_mem_keys {st : SymTable} {e : Nat}
    (h : e ∈ tableKeys st) : (tableGet st e).isSome := by
  cases hg : tableGet st e with
  | none => exact absurd h (tableGet_none.mp hg)
  | some d => rfl

theorem validEnum_sortEnum : validEnum sortEnum := by
  intro s
  constructor
  · exact (List.nodup_range _).filter _
  · intro x
    unfold sortEnum
    rw [List.mem_filter, List.mem_range]
    constructor
    · intro h
      simpa using h.2
    · intro h
      refine ⟨Nat.lt_succ_of_le ?_, by simpa using h⟩
      exact @Finset.le_sup ℕ ℕ _ _ s id x h

theorem bfs_superset {w : World} {st : SymTable} {enum2 : Finset Nat → List Nat} :
    ∀ (fuel : Nat) (q : List Nat) (visited : Finset Nat) (tr : List Nat)
      (R : Finset Nat) (trf : List Nat),
      bfsLoop w st enum2 fuel q visited tr = .ok (R, trf) →
      (∀ x ∈ visited, x ∈ R) ∧ (∀ x ∈ q, x ∈ R) := by
  intro fuel
  induction fuel with
  | zero => intro q visited tr R trf h; exact absurd h (by simp [bfsLoop])
  | succ n ih =>
    intro q visited tr R trf h
    cases q with
    | nil =>
      simp only [bfsLoop] at h
      injection h with h2
      injection h2 with h3 h4
      subst h3
      exact ⟨fun x hx => hx, fun x hx => absurd hx (by simp)⟩
    | cons x qs =>
      simp only [bfsLoop] at h
      by_cases hv : x ∈ visited
      · rw [if_pos hv] at h
        obtain ⟨h1, h2⟩ := ih qs visited tr R trf h
        refine ⟨h1, fun y hy => ?_⟩
        rcases List.mem_cons.mp hy with h3 | h3
        · exact h3 ▸ h1 x hv
        · exact h2 y h3
      · rw [if_neg hv] at h
        by_cases ht : isTerminal w x
        · rw [if_pos ht] at h
          obtain ⟨h1, h2⟩ := ih qs (insert x visited) tr R trf h
          refine ⟨fun y hy => h1 y (Finset.mem_insert_of_mem hy), fun y hy => ?_⟩
          rcases List.mem_cons.mp hy with h3 | h3
          · exact h3 ▸ h1 x (Finset.mem_insert_self x visited)
          · exact h2 y h3
        · rw [if_neg ht] at h
          cases hg : tableGet st x with
          | none => rw [hg] at h; exact absurd h (by simp)
          | some d =>
            rw [hg] at h
            obtain ⟨h1, h2⟩ := ih _ (insert x visited) _ R trf h
            refine ⟨fun y hy => h1 y (Finset.mem_insert_of_mem hy), fun y hy => ?_⟩
            rcases List.mem_cons.mp hy with h3 | h3
            · exact h3 ▸ h1 x (Finset.mem_insert_self x visited)
            · exact h2 y (List.mem_append_left _ h3)

theorem bfs_closed {w : World} {st : SymTable} {enum2 : Finset Nat → List Nat}
    (henum : validEnum enum2) :
    ∀ (fuel : Nat) (q : List Nat) (visited : Finset Nat) (tr : List Nat)
      (R : Finset Nat) (trf : List Nat),
      bfsLoop w st enum2 fuel q visited tr = .ok (R, trf) →
      (∀ x ∈ visited, isTerminal w x = false →
        ∃ d, tableGet st x = some d ∧
          ∀ y, (y ∈ d.deps ∨ y ∈ d.definitions) → y ∈ visited ∨ y ∈ q) →
      ∀ x ∈ R, isTerminal w x = false →
        ∃ d, tableGet st x = some d ∧
          ∀ y, (y ∈ d.deps ∨ y ∈ d.definitions) → y ∈ R := by
  intro fuel
  induction fuel with
  | zero => intro q visited tr R trf h; exact absurd h (by simp [bfsLoop])
  | succ n ih =>
    intro q visited tr R trf h hinv
    cases q with
    | nil =>
      simp only [bfsLoop] at h
      injection h with h2
      injection h2 with h3 h4
      subst h3
      intro x hx hterm
      obtain ⟨d, hd1, hd2⟩ := hinv x hx hterm
      refine ⟨d, hd1, fun y hy => ?_⟩
      rcases hd2 y hy with h5 | h5
      · exact h5
      · exact absurd h5 (by simp)
    | cons x qs =>
      simp only [bfsLoop] at h
      by_cases hv : x ∈ visited
      · rw [if_pos hv] at h
        refine ih qs visited tr R trf h ?_
        intro x2 hx2 hterm2
        obtain ⟨d, hd1, hd2⟩ := hinv x2 hx2 hterm2
        refine ⟨d, hd1, fun y hy => ?_⟩
        rcases hd2 y hy with h5 | h5
        · exact Or.inl h5
        · rcases List.mem_cons.mp h5 with h6 | h6
          · exact Or.inl (h6 ▸ hv)
          · exact Or.inr h6
      · rw [if_neg hv] at h
        by_cases ht : isTerminal w x
        · rw [if_pos ht] at h
          refine ih qs (insert x visited) tr R trf h ?_
          intro x2 hx2 hterm2
          rcases Finset.mem_insert.mp hx2 with h5 | h5
          · rw [h5] at hterm2
            rw [ht] at hterm2
            exact absurd hterm2 (by simp)
          · obtain ⟨d, hd1, hd2⟩ := hinv x2 h5 hterm2
            refine ⟨d, hd1, fun y hy => ?_⟩
            rcases hd2 y hy with h6 | h6
            · exact Or.inl (Finset.mem_insert_of_mem h6)
            · rcases List.mem_cons.mp h6 with h7 | h7
              · exact Or.inl (h7 ▸ Finset.mem_insert_self x visited)
              · exact Or.inr h7
        · rw [if_neg ht] at h
          cases hg : tableGet st x with
          | none => rw [hg] at h; exact absurd h (by simp)
          | some d =>
            rw [hg] at h
            refine ih _ (insert x visited) _ R trf h ?_
            intro x2 hx2 hterm2
            rcases Finset.mem_insert.mp hx2 with h5 | h5
            · subst h5
              refine ⟨d, hg, fun y hy => ?_⟩
              by_cases hyv : y ∈ insert x2 visited
              · exact Or.inl hyv
              · refine Or.inr (List.mem_append_right _ ?_)
                rcases hy with h6 | h6
                · exact List.mem_append_left _ (List.mem_filter.mpr
                    ⟨((henum d.deps).2 y).mpr h6, by simpa using hyv⟩)
                · exact List.mem_append_right _ (List.mem_filter.mpr
                    ⟨((henum d.definitions).2 y).mpr h6, by simpa using hyv⟩)
            · obtain ⟨d2, hd1, hd2⟩ := hinv x2 h5 hterm2
              refine ⟨d2, hd1, fun y hy => ?_⟩
              rcases hd2 y hy with h6 | h6
              · exact Or.inl (Finset.mem_insert_of_mem h6)
              · rcases List.mem_cons.mp h6 with h7 | h7
                · exact Or.inl (h7 ▸ Finset.mem_insert_self x visited)
                · exact Or.inr (List.mem_append_left _ h7)

theorem bfs_reach {w : World} {targets : List String} {st : SymTable}
    {enum2 : Finset Nat → List Nat} (henum : validEnum enum2) :
    ∀ (fuel : Nat) (q : List Nat) (visited : Finset Nat) (tr : List Nat)
      (R : Finset Nat) (trf : List Nat),
      bfsLoop w st enum2 fuel q visited tr = .ok (R, trf) →
      (∀ x ∈ visited, ReachB w targets st x) →
      (∀ x ∈ q, ReachB w targets st x) →
      ∀ x ∈ R, ReachB w targets st x := by
  intro fuel
  induction fuel with
  | zero => intro q visited tr R trf h; exact absurd h (by simp [bfsLoop])
  | succ n ih =>
    intro q visited tr R trf h hv hq
    cases q with
    | nil =>
      simp only [bfsLoop] at h
      injection h with h2
      injection h2 with h3 h4
      subst h3
      exact hv
    | cons x qs =>
      simp only [bfsLoop] at h
      by_cases hvx : x ∈ visited
      · rw [if_pos hvx] at h
        exact ih qs visited tr R trf h hv (fun y hy => hq y (List.mem_cons_of_mem _ hy))
      · rw [if_neg hvx] at h
        have hrx : ReachB w targets st x := hq x (List.mem_cons_self _ _)
        by_cases ht : isTerminal w x
        · rw [if_pos ht] at h
          refine ih qs (insert x visited) tr R trf h ?_
            (fun y hy => hq y (List.mem_cons_of_mem _ hy))
          intro y hy
          rcases Finset.mem_insert.mp hy with h5 | h5
          · exact h5 ▸ hrx
          · exact hv y h5
        · rw [if_neg ht] at h
          cases hg : tableGet st x with
          | none => rw [hg] at h; exact absurd h (by simp)
          | some d =>
            rw [hg] at h
            refine ih _ (insert x visited) _ R trf h ?_ ?_
            · intro y hy
              rcases Finset.mem_insert.mp hy with h5 | h5
              · exact h5 ▸ hrx
              · exact hv y h5
            · intro y hy
              rcases List.mem_append.mp hy with h5 | h5
              · exact hq y (List.mem_cons_of_mem _ h5)
              · have hterm : isTerminal w x = false := by
                  cases h6 : isTerminal w x
                  · rfl
                  · exact absurd h6 ht
                rcases List.mem_append.mp h5 with h6 | h6
                · exact ReachB.step x y d hrx hterm hg
                    (Or.inl (((henum d.deps).2 y).mp (List.mem_of_mem_filter h6)))
                · exact ReachB.step x y d hrx hterm hg
                    (Or.inr (((henum d.definitions).2 y).mp (List.mem_of_mem_filter h6)))

theorem bfs_trace {w : World} {st : SymTable} {enum2 : Finset Nat → List Nat} :
    ∀ (fuel : Nat) (q : List Nat) (visited : Finset Nat) (tr : List Nat)
      (R : Finset Nat) (trf : List Nat),
      bfsLoop w st enum2 fuel q visited tr = .ok (R, trf) →
      (∀ x ∈ tr, isTerminal w x = false) →
      ∀ x ∈ trf, isTerminal w x = false := by
  intro fuel
  induction fuel with
  | zero => intro q visited tr R trf h; exact absurd h (by simp [bfsLoop])
  | succ n ih =>
    intro q visited tr R trf h htr
    cases q with
    | nil =>
      simp only [bfsLoop] at h
      injection h with h2
      injection h2 with h3 h4
      subst h4
      exact htr
    | cons x qs =>
      simp only [bfsLoop] at h
      by_cases hv : x ∈ visited
      · rw [if_pos hv] at h
        exact ih qs visited tr R trf h htr
      · rw [if_neg hv] at h
        by_cases ht : isTerminal w x
        · rw [if_pos ht] at h
          exact ih qs (insert x visited) tr R trf h htr
        · rw [if_neg ht] at h
          cases hg : tableGet st x with
          | none => rw [hg] at h; exact absurd h (by simp)
          | some d =>
            rw [hg] at h
            refine ih _ (insert x visited) _ R trf h ?_
            intro y hy
            rcases List.mem_append.mp hy with h5 | h5
            · exact htr y h5
            · have h6 : y = x := by simpa using h5
              subst h6
              cases h7 : isTerminal w y
              · rfl
              · exact absurd h7 ht

theorem bfs_no_missing {w : World} {st : SymTable} {enum2 : Finset Nat → List Nat}
    (henum : validEnum enum2)
    (htable : ∀ x d, tableGet st x = some d →
      ∀ y, (y ∈ d.deps ∨ y ∈ d.definitions) →
        (tableGet st y).isSome ∨ isTerminal w y = true) :
    ∀ (fuel : Nat) (q : List Nat) (visited : Finset Nat) (tr : List Nat),
      (∀ x ∈ q, (tableGet st x).isSome ∨ isTerminal w x = true) →
      ∀ e, bfsLoop w st enum2 fuel q visited tr ≠ .error (.keyNotFound e) := by
  intro fuel
  induction fuel with
  | zero => intro q visited tr _ e h; simp [bfsLoop] at h
  | succ n ih =>
    intro q visited tr hq e h
    cases q with
    | nil => simp [bfsLoop] at h
    | cons x qs =>
      simp only [bfsLoop] at h
      by_cases hv : x ∈ visited
      · rw [if_pos hv] at h
        exact ih qs visited tr (fun y hy => hq y (List.mem_cons_of_mem _ hy)) e h
      · rw [if_neg hv] at h
        by_cases ht : isTerminal w x
        · rw [if_pos ht] at h
          exact ih qs (insert x visited) tr
            (fun y hy => hq y (List.mem_cons_of_mem _ hy)) e h
        · rw [if_neg ht] at h
          cases hg : tableGet st x with
          | none =>
            rcases hq x (List.mem_cons_self _ _) with h5 | h5
            · rw [hg] at h5; exact absurd h5 (by simp)
            · exact absurd h5 (by simpa using ht)
          | some d =>
            rw [hg] at h
            refine ih _ (insert x visited) _ ?_ e h
            intro y hy
            rcases List.mem_append.mp hy with h5 | h5
            · exact hq y (List.mem_cons_of_mem _ h5)
            · rcases List.mem_append.mp h5 with h6 | h6
              · exact htable x d hg y
                  (Or.inl (((henum d.deps).2 y).mp (List.mem_of_mem_filter h6)))
              · exact htable x d hg y
                  (Or.inr (((henum d.definitions).2 y).mp (List.mem_of_mem_filter h6)))

theorem extract_ok_bfs {w : World} {targets : List String} {st : SymTable}
    {enum2 : Finset Nat → List Nat} {R : Finset Nat}
    (h : extractWith w targets st enum2 = .ok R) :
    ∃ trf, bfsLoop w st enum2 (extractFuel st (seedQueue w targets st))
      (seedQueue w targets st) ∅ [] = .ok (R, trf) := by
  unfold extractWith extractTrace at h
  cases hb : bfsLoop w st enum2 (extractFuel st (seedQueue w targets st))
      (seedQueue w targets st) ∅ [] with
  | error er => rw [hb] at h; exact absurd h (by simp)
  | ok r =>
    rw [hb] at h
    have h2 : (Except.ok (r.1 ∪ r.1.filter (fun e => (w.data e).kind = .macroExp)) :
        Except RtErr (Finset Nat)) = .ok R := h
    injection h2 with h3
    have h4 : r.1 ∪ r.1.filter (fun e => (w.data e).kind = .macroExp) = r.1 :=
      Finset.union_eq_left.mpr (Finset.filter_subset _ _)
    have hR : R = r.1 := by rw [← h3, h4]
    exact ⟨r.2, by rw [hR]⟩

theorem extract_char {w : World} {targets : List String} {st : SymTable}
    {enum2 : Finset Nat → List Nat} {R : Finset Nat} (henum : validEnum enum2)
    (h : extractWith w targets st enum2 = .ok R) :
    ∀ x, x ∈ R ↔ ReachB w targets st x := by
  obtain ⟨trf, hb⟩ := extract_ok_bfs h
  intro x
  constructor
  · intro hx
    refine bfs_reach henum _ _ _ _ _ _ hb ?_ ?_ x hx
    · intro y hy; exact absurd hy (by simp)
    · intro y hy
      obtain ⟨hk, n, hn, hc⟩ := seedQueue_mem hy
      exact ReachB.seed y hk ⟨n, hn, hc⟩
  · intro hx
    induction hx with
    | seed y hk hname =>
      obtain ⟨n, hn, hc⟩ := hname
      exact (bfs_superset _ _ _ _ _ _ hb).2 y (mem_seedQueue hk hn hc)
    | step y z d hy hterm hlook hz ihy =>
      obtain ⟨d2, hd1, hd2⟩ := bfs_closed henum _ _ _ _ _ _ hb
        (fun x2 hx2 => absurd hx2 (by simp)) y ihy hterm
      rw [hlook] at hd1
      injection hd1 with h5
      exact hd2 z (h5 ▸ hz)

theorem ReachB_perm {w : World} {targets : List String} {st stp : SymTable}
    (hperm : stp.Perm st) (hnd : (tableKeys st).Nodup) {x : Nat}
    (h : ReachB w targets stp x) : ReachB w targets st x := by
  induction h with
  | seed y hk hname =>
    exact ReachB.seed y ((hperm.map Prod.fst).mem_iff.mp hk) hname
  | step y z d hy hterm hlook hz ihy =>
    exact ReachB.step y z d ihy hterm
      ((tableGet_perm hperm hnd y).symm.trans hlook) hz

theorem ReachB_to_ReachD {w : World} {targets : List String} {st : SymTable}
    {x : Nat} (h : ReachB w targets st x) : ReachD w targets st x := by
  induction h with
  | seed y hk hname => exact ReachD.seed y hk hname
  | step y z d hy hterm hlook hz ihy => exact ReachD.step y z d ihy hlook hz

/-- Claim C1: the extracted set is closed under `deps` and `definitions`
edges of its non-terminal (non-macro-expansion, non-inclusion-directive)
symbols; it equals the breadth-first reachability closure of the entry seeds,
and is therefore a fixpoint independent of the traversal order: independent
of the symbol-table iteration order (any permutation with the same keys) and
of the `HashSet` iteration order of each descriptor's edge sets. -/
theorem C1_extracted_closed (w : World) (targets : List String) (st : SymTable)
    (R : Finset Nat) (hok : extract_symbols w targets st = .ok R) :
    (∀ s ∈ R, isTerminal w s = false →
      ∀ d, tableGet st s = some d →
        ∀ y, (y ∈ d.deps ∨ y ∈ d.definitions) → y ∈ R) ∧
    (∀ x, x ∈ R ↔ ReachB w targets st x) ∧
    (∀ stp Rp, stp.Perm st → (tableKeys st).Nodup →
      extract_symbols w targets stp = .ok Rp → Rp = R) ∧
    (∀ enum2 Rp, validEnum enum2 →
      extractWith w targets st enum2 = .ok Rp → Rp = R) := by
  have hchar := extract_char validEnum_sortEnum hok
  refine ⟨?_, hchar, ?_, ?_⟩
  · intro s hs hterm d hd y hy
    obtain ⟨trf, hb⟩ := extract_ok_bfs hok
    obtain ⟨d2, hd1, hd2⟩ := bfs_closed validEnum_sortEnum _ _ _ _ _ _ hb
      (fun x2 hx2 => absurd hx2 (by simp)) s hs hterm
    rw [hd] at hd1
    injection hd1 with h5
    exact hd2 y (h5 ▸ hy)
  · intro stp Rp hperm hnd hokp
    have hcharp := extract_char validEnum_sortEnum hokp
    have hndp : (tableKeys stp).Nodup := ((hperm.map Prod.fst).nodup_iff).mpr hnd
    apply Finset.ext
    intro x
    rw [hcharp x, hchar x]
    exact ⟨ReachB_perm hperm hnd, ReachB_perm hperm.symm hndp⟩
  · intro enum2 Rp henum hokp
    have hcharp := extract_char henum hokp
    apply Finset.ext
    intro x
    rw [hcharp x, hchar x]

theorem C1_extracted_closed_witness : ReachB wC1 ["main"] stC1 1 :=
  ((C1_extracted_closed wC1 ["main"] stC1 {0, 1} (by decide)).2.1 1).mp (by decide)

/-- Claim C2: every extracted symbol is reachable from some entry symbol: it
is a Global Symbol Table key whose name equals an entry name, or is connected
to such a seed by a finite path of `deps` or `definitions` edges. -/
theorem C2_extracted_reachable (w : World) (targets : List String)
    (st : SymTable) (R : Finset Nat)
    (hok : extract_symbols w targets st = .ok R) :
    ∀ s ∈ R, ReachD w targets st s := fun s hs =>
  ReachB_to_ReachD ((extract_char validEnum_sortEnum hok s).mp hs)

theorem C2_extracted_reachable_witness : ReachD wC1 ["main"] stC1 1 :=
  C2_extracted_reachable wC1 ["main"] stC1 {0, 1} (by decide) 1 (by decide)

theorem enum_length {enum2 : Finset Nat → List Nat} (henum : validEnum enum2)
    (s : Finset Nat) : (enum2 s).length = s.card := by
  have h1 : (enum2 s).toFinset = s := Finset.ext fun y => by
    rw [List.mem_toFinset]
    exact (henum s).2 y
  rw [← List.toFinset_card_of_nodup (henum s).1, h1]

theorem filter_not_insert (keysF : Finset Nat) (x : Nat) (visited : Finset Nat) :
    keysF.filter (fun y => y ∉ insert x visited) =
      (keysF.filter (fun y => y ∉ visited)).erase x := by
  apply Finset.ext
  intro y
  simp only [Finset.mem_filter, Finset.mem_erase, Finset.mem_insert]
  constructor
  · rintro ⟨h1, h2⟩
    exact ⟨fun he => h2 (Or.inl he), h1, fun hv => h2 (Or.inr hv)⟩
  · rintro ⟨h1, h2, h3⟩
    refine ⟨h2, ?_⟩
    rintro (h4 | h4)
    · exact h1 h4
    · exact h3 h4

theorem potential_insert_key {st : SymTable} {x : Nat} {visited : Finset Nat}
    (hx : x ∈ keysFinset st) (hnv : x ∉ visited) :
    ((keysFinset st).filter (fun y => y ∉ visited)).sum (ecard st) =
      ecard st x +
        ((keysFinset st).filter (fun y => y ∉ insert x visited)).sum (ecard st) := by
  rw [filter_not_insert]
  exact (Finset.add_sum_erase _ (ecard st)
    (Finset.mem_filter.mpr ⟨hx, by simpa using hnv⟩)).symm

theorem sum_filter_insert_le (st : SymTable) (x : Nat) (visited : Finset Nat) :
    ((keysFinset st).filter (fun y => y ∉ insert x visited)).sum (ecard st) ≤
      ((keysFinset st).filter (fun y => y ∉ visited)).sum (ecard st) :=
  Finset.sum_le_sum_of_subset (fun y hy => by
    rw [Finset.mem_filter] at hy ⊢
    exact ⟨hy.1, fun hv => hy.2 (Finset.mem_insert_of_mem hv)⟩)

theorem keysFsum_le_listsum : ∀ (st : SymTable),
    (keysFinset st).sum (ecard st) ≤
      (st.map fun p => p.2.deps.card + p.2.definitions.card).sum := by
  intro st
  induction st with
  | nil => simp [keysFinset, tableKeys]
  | cons p rest ih =>
    obtain ⟨k, d⟩ := p
    have hkeys : keysFinset ((k, d) :: rest) = insert k (keysFinset rest) := by
      simp [keysFinset, tableKeys]
    have hecard : ∀ y, ¬ y = k → ecard ((k, d) :: rest) y = ecard rest y := by
      intro y hy
      unfold ecard
      rw [show tableGet ((k, d) :: rest) y =
        (if y = k then some d else tableGet rest y) from rfl, if_neg hy]
    have hecardk : ecard ((k, d) :: rest) k =
        d.deps.card + d.definitions.card := by
      unfold ecard
      rw [show tableGet ((k, d) :: rest) k =
        (if k = k then some d else tableGet rest k) from rfl, if_pos rfl]
    rw [hkeys]
    simp only [List.map_cons, List.sum_cons]
    by_cases hk : k ∈ keysFinset rest
    · rw [Finset.insert_eq_self.mpr hk]
      have h1 : (keysFinset rest).sum (ecard ((k, d) :: rest)) =
          ecard ((k, d) :: rest) k +
            ((keysFinset rest).erase k).sum (ecard ((k, d) :: rest)) :=
        (Finset.add_sum_erase _ _ hk).symm
      have h2 : ((keysFinset rest).erase k).sum (ecard ((k, d) :: rest)) =
          ((keysFinset rest).erase k).sum (ecard rest) :=
        Finset.sum_congr rfl (fun y hy => hecard y (Finset.mem_erase.mp hy).1)
      have h3 : ((keysFinset rest).erase k).sum (ecard rest) ≤
          (keysFinset rest).sum (ecard rest) :=
        Finset.sum_le_sum_of_subset (Finset.erase_subset _ _)
      rw [h1, h2, hecardk]
      omega
    · rw [Finset.sum_insert hk, hecardk]
      have h2 : (keysFinset rest).sum (ecard ((k, d) :: rest)) =
          (keysFinset rest).sum (ecard rest) :=
        Finset.sum_congr rfl (fun y hy => hecard y (fun he => hk (he ▸ hy)))
      rw [h2]
      omega

theorem bfs_no_fuel_exhaustion {w : World} {st : SymTable}
    {enum2 : Finset Nat → List Nat} (henum : validEnum enum2) :
    ∀ (fuel : Nat) (q : List Nat) (visited : Finset Nat) (tr : List Nat),
      potential st q visited < fuel →
      bfsLoop w st enum2 fuel q visited tr ≠ .error .outOfFuel := by
  intro fuel
  induction fuel with
  | zero => intro q visited tr hpot; exact absurd hpot (Nat.not_lt_zero _)
  | succ n ih =>
    intro q visited tr hpot h
    cases q with
    | nil => simp [bfsLoop] at h
    | cons x qs =>
      simp only [bfsLoop] at h
      by_cases hv : x ∈ visited
      · rw [if_pos hv] at h
        refine ih qs visited tr ?_ h
        unfold potential at hpot ⊢
        rw [List.length_cons] at hpot
        omega
      · rw [if_neg hv] at h
        by_cases ht : isTerminal w x
        · rw [if_pos ht] at h
          refine ih qs (insert x visited) tr ?_ h
          unfold potential at hpot ⊢
          rw [List.length_cons] at hpot
          have hm := sum_filter_insert_le st x visited
          omega
        · rw [if_neg ht] at h
          cases hg : tableGet st x with
          | none => rw [hg] at h; simp at h
          | some d =>
            rw [hg] at h
            refine ih _ (insert x visited) _ ?_ h
            have hxkey : x ∈ keysFinset st := by
              rw [keysFinset, List.mem_toFinset]
              exact List.mem_map.mpr ⟨(x, d), tableGet_mem hg, rfl⟩
            have heq := potential_insert_key hxkey hv
            have hec : ecard st x = d.deps.card + d.definitions.card := by
              unfold ecard
              rw [hg]
            have hlen1 : ((enum2 d.deps).filter
                (fun y => y ∉ insert x visited)).length ≤ d.deps.card := by
              have h5 := List.length_filter_le
                (fun y => decide (y ∉ insert x visited)) (enum2 d.deps)
              rw [enum_length henum d.deps] at h5
              exact h5
            have hlen2 : ((enum2 d.definitions).filter
                (fun y => y ∉ insert x visited)).length ≤ d.definitions.card := by
              have h5 := List.length_filter_le
                (fun y => decide (y ∉ insert x visited)) (enum2 d.definitions)
              rw [enum_length henum d.definitions] at h5
              exact h5
            unfold potential at hpot ⊢
            rw [List.length_cons] at hpot
            rw [List.length_append, List.length_append]
            omega

theorem bfs_error_cases {w : World} {st : SymTable}
    {enum2 : Finset Nat → List Nat} :
    ∀ (fuel : Nat) (q : List Nat) (visited : Finset Nat) (tr : List Nat)
      (er : RtErr), bfsLoop w st enum2 fuel q visited tr = .error er →
      er = .outOfFuel ∨ ∃ x, er = .keyNotFound x := by
  intro fuel
  induction fuel with
  | zero =>
    intro q visited tr er h
    simp only [bfsLoop] at h
    injection h with h3
    exact Or.inl h3.symm
  | succ n ih =>
    intro q visited tr er h
    cases q with
    | nil => simp [bfsLoop] at h
    | cons x qs =>
      simp only [bfsLoop] at h
      by_cases hv : x ∈ visited
      · rw [if_pos hv] at h
        exact ih qs visited tr er h
      · rw [if_neg hv] at h
        by_cases ht : isTerminal w x
        · rw [if_pos ht] at h
          exact ih qs (insert x visited) tr er h
        · rw [if_neg ht] at h
          cases hg : tableGet st x with
          | none =>
            rw [hg] at h
            have h2 : (Except.error (RtErr.keyNotFound x) :
                Except RtErr (Finset Nat × List Nat)) = .error er := h
            injection h2 with h3
            exact Or.inr ⟨x, h3.symm⟩
          | some d =>
            rw [hg] at h
            exact ih _ (insert x visited) _ er h

/-- Claim C8: under the invariant that every `deps` or `definitions` edge
leads to a Global Symbol Table key or to a macro/include (terminal) entity,
the extraction never takes the missing-descriptor panic branch, every
symbol whose descriptor it does look up is non-terminal (macro-expansion and
inclusion-directive symbols short-circuit before any table access), and the
extraction completes with a result. -/
theorem C8_no_spurious_lookup (w : World) (targets : List String)
    (st : SymTable) (enum2 : Finset Nat → List Nat) (henum : validEnum enum2)
    (htable : ∀ x d, tableGet st x = some d →
      ∀ y, (y ∈ d.deps ∨ y ∈ d.definitions) →
        (tableGet st y).isSome ∨ isTerminal w y = true) :
    (∀ e, extractTrace w targets st enum2 ≠ .error (.keyNotFound e)) ∧
    (∀ R tr, extractTrace w targets st enum2 = .ok (R, tr) →
      ∀ x ∈ tr, isTerminal w x = false) ∧
    (∃ R tr, extractTrace w targets st enum2 = .ok (R, tr)) := by
  have hmiss : ∀ e, extractTrace w targets st enum2 ≠ .error (.keyNotFound e) := by
    intro e h
    unfold extractTrace at h
    cases hb : bfsLoop w st enum2 (extractFuel st (seedQueue w targets st))
        (seedQueue w targets st) ∅ [] with
    | error er =>
      rw [hb] at h
      have h2 : (Except.error er : Except RtErr (Finset Nat × List Nat)) =
          .error (.keyNotFound e) := h
      injection h2 with h3
      exact bfs_no_missing henum htable _ _ ∅ []
        (fun y hy => Or.inl (tableGet_isSome_of_mem_keys (seedQueue_mem hy).1))
        e (h3 ▸ hb)
    | ok r => rw [hb] at h; exact absurd h (by simp)
  refine ⟨hmiss, ?_, ?_⟩
  · intro R tr h
    unfold extractTrace at h
    cases hb : bfsLoop w st enum2 (extractFuel st (seedQueue w targets st))
        (seedQueue w targets st) ∅ [] with
    | error er => rw [hb] at h; exact absurd h (by simp)
    | ok r =>
      rw [hb] at h
      have h5 : (Except.ok (r.1 ∪ r.1.filter (fun e => (w.data e).kind = .macroExp),
          r.2) : Except RtErr (Finset Nat × List Nat)) = .ok (R, tr) := h
      injection h5 with h6
      have h4 : r.2 = tr := congrArg Prod.snd h6
      have h3 := bfs_trace _ _ _ _ _ _ hb
        (fun x hx => absurd hx (by simp))
      intro x hx
      exact h3 x (h4 ▸ hx)
  · cases hb : bfsLoop w st enum2 (extractFuel st (seedQueue w targets st))
        (seedQueue w targets st) ∅ [] with
    | error er =>
      rcases bfs_error_cases _ _ _ _ _ hb with h1 | ⟨x, h2⟩
      · subst h1
        have hpot : potential st (seedQueue w targets st) ∅ <
            extractFuel st (seedQueue w targets st) := by
          unfold potential extractFuel
          have hle := keysFsum_le_listsum st
          have hfe : (keysFinset st).filter
              (fun x => x ∉ (∅ : Finset Nat)) = keysFinset st :=
            Finset.filter_true_of_mem (fun x _ => by simp)
          rw [hfe]
          omega
        exact absurd hb (bfs_no_fuel_exhaustion henum _ _ _ _ hpot)
      · subst h2
        have h4 : extractTrace w targets st enum2 =
            .error (.keyNotFound x) := by
          unfold extractTrace
          rw [hb]
        exact absurd h4 (hmiss x)
    | ok r =>
      refine ⟨r.1 ∪ r.1.filter (fun e => (w.data e).kind = .macroExp), r.2, ?_⟩
      unfold extractTrace
      rw [hb]

theorem C8_no_spurious_lookup_witness :
    extractTrace wC1 ["main"] stC1 sortEnum ≠ .error (.keyNotFound 5) :=
  (C8_no_spurious_lookup wC1 ["main"] stC1 sortEnum validEnum_sortEnum
    (by
      intro x d hg y hy
      rcases List.mem_cons.mp (tableGet_mem hg) with h | h
      · injection h with h1 h2
        subst h1
        subst h2
        have h3 : y = 1 := by
          rcases hy with h4 | h4
          · simpa using h4
          · exact absurd h4 (by simp)
        subst h3
        exact Or.inl (by decide)
      · rcases List.mem_cons.mp h with h4 | h4
        · injection h4 with h1 h2
          subst h1
          subst h2
          rcases hy with h5 | h5
          · exact absurd h5 (by simp)
          · exact absurd h5 (by simp)
        · exact absurd h4 (by simp))).1 5

theorem mem_ordInsert {k v : Nat} {q : Nat × Nat} :
    ∀ {m : List (Nat × Nat)}, q ∈ ordInsert k v m → q = (k, v) ∨ q ∈ m := by
  intro m
  induction m with
  | nil => intro h; simp [ordInsert] at h; exact Or.inl h
  | cons p rest ih =>
    intro h
    obtain ⟨k2, v2⟩ := p
    unfold ordInsert at h
    by_cases h1 : k < k2
    · rw [if_pos h1] at h
      rcases List.mem_cons.mp h with h2 | h2
      · exact Or.inl h2
      · exact Or.inr h2
    · rw [if_neg h1] at h
      by_cases h2 : k = k2
      · rw [if_pos h2] at h
        exact Or.inr h
      · rw [if_neg h2] at h
        rcases List.mem_cons.mp h with h3 | h3
        · exact Or.inr (h3 ▸ List.mem_cons_self _ _)
        · rcases ih h3 with h4 | h4
          · exact Or.inl h4
          · exact Or.inr (List.mem_cons_of_mem _ h4)

theorem ordInsert_pairwise {k v : Nat} :
    ∀ {m : List (Nat × Nat)}, m.Pairwise (fun p q => p.1 < q.1) →
      (ordInsert k v m).Pairwise (fun p q => p.1 < q.1) := by
  intro m
  induction m with
  | nil => intro _; simp [ordInsert]
  | cons p rest ih =>
    intro h
    obtain ⟨k2, v2⟩ := p
    rw [List.pairwise_cons] at h
    obtain ⟨h1, h2⟩ := h
    unfold ordInsert
    by_cases hc : k < k2
    · rw [if_pos hc]
      refine List.Pairwise.cons ?_ (List.Pairwise.cons h1 h2)
      intro q hq
      rcases List.mem_cons.mp hq with h3 | h3
      · rw [h3]; exact hc
      · exact lt_trans hc (h1 q h3)
    · rw [if_neg hc]
      by_cases he : k = k2
      · rw [if_pos he]
        exact List.Pairwise.cons h1 h2
      · rw [if_neg he]
        refine List.Pairwise.cons ?_ (ih h2)
        intro q hq
        rcases mem_ordInsert hq with h3 | h3
        · rw [h3]; simp; omega
        · exact h1 q h3

theorem ordInsert_fresh_perm {k v : Nat} :
    ∀ {m : List (Nat × Nat)}, k ∉ m.map Prod.fst →
      (ordInsert k v m).Perm ((k, v) :: m) := by
  intro m
  induction m with
  | nil => intro _; simp [ordInsert]
  | cons p rest ih =>
    intro h
    obtain ⟨k2, v2⟩ := p
    have hne : k ≠ k2 := fun he => h (by simp [he])
    have hrest : k ∉ rest.map Prod.fst := fun hr => h (by simp [hr])
    unfold ordInsert
    by_cases hc : k < k2
    · rw [if_pos hc]
    · rw [if_neg hc, if_neg hne]
      exact ((ih hrest).cons (k2, v2)).trans (List.Perm.swap (k, v) (k2, v2) rest)

theorem ordSet_fold_pairwise :
    ∀ (keyed acc : List (Nat × Nat)), acc.Pairwise (fun p q => p.1 < q.1) →
      (keyed.foldl (fun a p => ordInsert p.1 p.2 a) acc).Pairwise
        (fun p q => p.1 < q.1) := by
  intro keyed
  induction keyed with
  | nil => intro acc h; exact h
  | cons p rest ih =>
    intro acc h
    rw [List.foldl_cons]
    exact ih _ (ordInsert_pairwise h)

theorem ordSet_fold_perm :
    ∀ (keyed acc : List (Nat × Nat)),
      ((acc ++ keyed).map Prod.fst).Nodup →
      (keyed.foldl (fun a p => ordInsert p.1 p.2 a) acc).Perm (acc ++ keyed) := by
  intro keyed
  induction keyed with
  | nil => intro acc h; simp
  | cons p rest ih =>
    intro acc h
    rw [List.foldl_cons]
    have hfresh : p.1 ∉ acc.map Prod.fst := by
      intro hin
      rw [List.map_append] at h
      exact (List.nodup_append.mp h).2.2 hin (by simp)
    have hperm1 : (ordInsert p.1 p.2 acc).Perm ((p.1, p.2) :: acc) :=
      ordInsert_fresh_perm hfresh
    have hmid : (((p.1, p.2) :: acc) ++ rest).Perm (acc ++ p :: rest) := by
      have he : ((p.1, p.2) :: acc) ++ rest = (p.1, p.2) :: (acc ++ rest) := by simp
      rw [he]
      exact List.perm_middle.symm
    have hnd2 : (((ordInsert p.1 p.2 acc) ++ rest).map Prod.fst).Nodup := by
      have hp3 := ((hperm1.append_right rest).trans hmid).map Prod.fst
      exact hp3.nodup_iff.mpr h
    exact ((ih _ hnd2).trans (hperm1.append_right rest)).trans hmid

theorem lookupLine_none_iff : ∀ {m : List (Nat × Nat)} {l : Nat},
    lookupLine m l = none ↔ l ∉ m.map Prod.fst := by
  intro m
  induction m with
  | nil => intro l; simp [lookupLine]
  | cons p rest ih =>
    intro l
    obtain ⟨k2, v2⟩ := p
    unfold lookupLine
    by_cases he : l = k2
    · rw [if_pos he]
      simp [he]
    · rw [if_neg he]
      simp [he, ih]

theorem lookupLine_ordInsert :
    ∀ (m : List (Nat × Nat)), m.Pairwise (fun p q => p.1 < q.1) →
      ∀ (k v l : Nat),
      lookupLine (ordInsert k v m) l =
        if l = k then optOr (lookupLine m k) (some v) else lookupLine m l := by
  intro m
  induction m with
  | nil =>
    intro _ k v l
    by_cases h : l = k <;> simp [ordInsert, lookupLine, optOr, h]
  | cons p rest ih =>
    intro hs k v l
    obtain ⟨k2, v2⟩ := p
    rw [List.pairwise_cons] at hs
    obtain ⟨hs1, hs2⟩ := hs
    by_cases h1 : k < k2
    · have hL : ordInsert k v ((k2, v2) :: rest) = (k, v) :: (k2, v2) :: rest := by
        unfold ordInsert
        rw [if_pos h1]
      rw [hL,
        show lookupLine ((k, v) :: (k2, v2) :: rest) l =
          (if l = k then some v else lookupLine ((k2, v2) :: rest) l) from rfl]
      by_cases h3 : l = k
      · have hnone : lookupLine ((k2, v2) :: rest) k = none := by
          rw [lookupLine_none_iff]
          intro hin
          rcases List.mem_cons.mp hin with h4 | h4
          · omega
          · obtain ⟨q, hq, hqk⟩ := List.mem_map.mp h4
            have := hs1 q hq
            omega
        rw [if_pos h3, if_pos h3, hnone]
        simp [optOr]
      · rw [if_neg h3, if_neg h3]
    · by_cases h2 : k = k2
      · have hL : ordInsert k v ((k2, v2) :: rest) = (k2, v2) :: rest := by
          unfold ordInsert
          rw [if_neg h1, if_pos h2]
        rw [hL]
        subst h2
        by_cases h3 : l = k
        · rw [if_pos h3,
            show lookupLine ((k, v2) :: rest) k =
              (if k = k then some v2 else lookupLine rest k) from rfl,
            if_pos rfl,
            show lookupLine ((k, v2) :: rest) l =
              (if l = k then some v2 else lookupLine rest l) from rfl,
            if_pos h3]
          simp [optOr]
        · rw [if_neg h3]
      · have hL : ordInsert k v ((k2, v2) :: rest) =
            (k2, v2) :: ordInsert k v rest := by
          rw [show ordInsert k v ((k2, v2) :: rest) =
            (if k < k2 then (k, v) :: (k2, v2) :: rest
             else if k = k2 then (k2, v2) :: rest
             else (k2, v2) :: ordInsert k v rest) from rfl, if_neg h1, if_neg h2]
        rw [hL,
          show lookupLine ((k2, v2) :: ordInsert k v rest) l =
            (if l = k2 then some v2 else lookupLine (ordInsert k v rest) l) from rfl,
          show lookupLine ((k2, v2) :: rest) k =
            (if k = k2 then some v2 else lookupLine rest k) from rfl,
          if_neg h2,
          show lookupLine ((k2, v2) :: rest) l =
            (if l = k2 then some v2 else lookupLine rest l) from rfl]
        by_cases h3 : l = k2
        · have h4 : ¬ l = k := by omega
          rw [if_pos h3, if_neg h4, if_pos h3]
        · rw [if_neg h3, if_neg h3, ih hs2 k v l]

theorem ordSet_fold_lookup :
    ∀ (keyed acc : List (Nat × Nat)), acc.Pairwise (fun p q => p.1 < q.1) →
      ∀ l, lookupLine (keyed.foldl (fun a p => ordInsert p.1 p.2 a) acc) l =
        optOr (lookupLine acc l)
          (((keyed.filter (fun q => q.1 = l)).head?).map Prod.snd) := by
  intro keyed
  induction keyed with
  | nil =>
    intro acc _ l
    cases h : lookupLine acc l <;> simp [optOr, h]
  | cons p rest ih =>
    intro acc hs l
    rw [List.foldl_cons]
    have hrec := ih (ordInsert p.1 p.2 acc) (ordInsert_pairwise hs) l
    rw [hrec, lookupLine_ordInsert acc hs p.1 p.2 l]
    by_cases hp : l = p.1
    · have hfilter : (p :: rest).filter (fun q => q.1 = l) =
          p :: rest.filter (fun q => q.1 = l) :=
        List.filter_cons_of_pos (by simp [hp])
      rw [hfilter, if_pos hp, hp]
      cases hacc : lookupLine acc p.1 <;> simp [optOr]
    · have hfilter : (p :: rest).filter (fun q => q.1 = l) =
          rest.filter (fun q => q.1 = l) :=
        List.filter_cons_of_neg (by simp; omega)
      rw [hfilter, if_neg hp]

theorem ordSet_pairwise (keyed : List (Nat × Nat)) :
    (ordSet keyed).Pairwise (fun p q => p.1 < q.1) :=
  ordSet_fold_pairwise keyed [] (by simp)

theorem ordSet_perm {keyed : List (Nat × Nat)}
    (h : (keyed.map Prod.fst).Nodup) : (ordSet keyed).Perm keyed :=
  ordSet_fold_perm keyed [] (by simpa using h)

theorem ordSet_lookup (keyed : List (Nat × Nat)) (l : Nat) :
    lookupLine (ordSet keyed) l =
      ((keyed.filter (fun q => q.1 = l)).head?).map Prod.snd := by
  have h := ordSet_fold_lookup keyed [] (by simp) l
  rw [show lookupLine [] l = none from rfl] at h
  rw [show ordSet keyed = keyed.foldl (fun a p => ordInsert p.1 p.2 a) [] from rfl,
    h]
  rfl

theorem keyEntries_ok {w : World} :
    ∀ {entries : List Nat} {keyed : List (Nat × Nat)},
      keyEntries w entries = .ok keyed →
      keyed = entries.map (fun x => (lineD w x, x)) := by
  intro entries
  induction entries with
  | nil =>
    intro keyed h
    unfold keyEntries at h
    injection h with h2
    exact h2.symm
  | cons x rest ih =>
    intro keyed h
    unfold keyEntries at h
    cases hk : keyEntry w x with
    | error e => rw [hk] at h; exact absurd h (by simp)
    | ok p =>
      rw [hk] at h
      cases hr : keyEntries w rest with
      | error e => rw [hr] at h; exact absurd h (by simp)
      | ok ps =>
        rw [hr] at h
        injection h with h2
        have hp : p = (lineD w x, x) := by
          unfold keyEntry startLineOf at hk
          cases hl : (w.data x).location with
          | none => rw [hl] at hk; exact absurd hk (by simp)
          | some lo =>
            rw [hl] at hk
            have h3 : (Except.ok ((lo.fileLoc.line, x) : Nat × Nat) :
                Except RtErr (Nat × Nat)) = .ok p := hk
            injection h3 with h4
            rw [← h4]
            unfold lineD
            rw [hl]
        rw [← h2, hp, ih hr]
        rfl

theorem foldlM_emitSym_join {w : World} {src : List String} :
    ∀ (l : List (Nat × Nat)) (out0 out : List String),
      l.foldlM (emitSym w src) out0 = .ok out →
      ∃ chunks, List.Forall₂ (fun (p : Nat × Nat) c => sliceOf w src p.2 = .ok c)
        l chunks ∧ out = out0 ++ chunks.flatten := by
  intro l
  induction l with
  | nil =>
    intro out0 out h
    rw [List.foldlM_nil, expure_eq] at h
    injection h with h2
    exact ⟨[], List.Forall₂.nil, by rw [← h2]; simp⟩
  | cons p rest ih =>
    intro out0 out h
    rw [List.foldlM_cons] at h
    cases hstep : emitSym w src out0 p with
    | error e => rw [hstep, exbind_err] at h; exact absurd h (by simp)
    | ok out1 =>
      rw [hstep, exbind_ok] at h
      obtain ⟨chunks, hf, hout⟩ := ih out1 out h
      unfold emitSym at hstep
      cases hslice : sliceOf w src p.2 with
      | error e => rw [hslice] at hstep; exact absurd hstep (by simp)
      | ok lines =>
        rw [hslice] at hstep
        injection hstep with h3
        refine ⟨lines :: chunks, List.Forall₂.cons hslice hf, ?_⟩
        rw [hout, ← h3]
        simp

/-- Claim C6, counterexample: a file whose single extracted symbol spans
lines 2-3 and whose kept inclusion directive sits on line 5 is emitted with
the symbol's lines before the include's line: the single line-ordered
`BTreeSet` interleaves includes and symbols by start line, it does not put
the includes first. -/
theorem C6_counterexample :
    processFile wC6 [] [] [["", "src", "util.h"]] [2] [1]
        ["l1", "l2", "l3", "l4", "l5"] = .ok ["l2", "l3", "l5"] ∧
      (["l2", "l3", "l5"] : List String) ≠ ["l5", "l2", "l3"] := by
  refine ⟨by decide, by decide⟩

/-- Claim C6 as amended: for a processed file with extracted symbols, the
emitted file consists of the file's kept inclusion directives (those whose
normalized target is a file with extracted symbols and that are not
unparsable includes) and its extracted symbols merged into one sequence in
ascending start-line order, each surviving entry contributing exactly the
unmodified source lines of its inclusive line range; entries sharing a start
line collapse to the first inserted one (kept includes are inserted before
symbols). -/
theorem C6_emitted_order (w : World) (reg : List (String × FsPath))
    (unparsable : List Nat) (filesWithSyms : List FsPath)
    (incls syms : List Nat) (src : List String) (out : List String)
    (hok : processFile w reg unparsable filesWithSyms incls syms src = .ok out) :
    ∃ kept keyed chunks,
      keptIncludes w reg unparsable filesWithSyms incls = .ok kept ∧
      keyed = (kept ++ syms).map (fun x => (lineD w x, x)) ∧
      (ordSet keyed).Pairwise (fun p q => p.1 < q.1) ∧
      (∀ l, lookupLine (ordSet keyed) l =
        ((keyed.filter (fun q => q.1 = l)).head?).map Prod.snd) ∧
      List.Forall₂ (fun (p : Nat × Nat) c => sliceOf w src p.2 = .ok c)
        (ordSet keyed) chunks ∧
      out = chunks.flatten := by
  unfold processFile at hok
  cases hkept : keptIncludes w reg unparsable filesWithSyms incls with
  | error e => rw [hkept, exbind_err] at hok; exact absurd hok (by simp)
  | ok kept =>
    rw [hkept, exbind_ok] at hok
    unfold emitFile at hok
    cases hke : keyEntries w (kept ++ syms) with
    | error e => rw [hke, exbind_err] at hok; exact absurd hok (by simp)
    | ok keyed =>
      rw [hke, exbind_ok] at hok
      obtain ⟨chunks, hf, hout⟩ := foldlM_emitSym_join _ [] out hok
      exact ⟨kept, keyed, chunks, rfl, keyEntries_ok hke, ordSet_pairwise keyed,
        fun l => ordSet_lookup keyed l, hf, by simpa using hout⟩

theorem C6_emitted_order_witness :
    ∃ kept keyed chunks,
      keptIncludes wC6 [] [] [["", "src", "util.h"]] [2] = .ok kept ∧
      keyed = (kept ++ [1]).map (fun x => (lineD wC6 x, x)) ∧
      (ordSet keyed).Pairwise (fun p q => p.1 < q.1) ∧
      (∀ l, lookupLine (ordSet keyed) l =
        ((keyed.filter (fun q => q.1 = l)).head?).map Prod.snd) ∧
      List.Forall₂ (fun (p : Nat × Nat) c =>
        sliceOf wC6 ["l1", "l2", "l3", "l4", "l5"] p.2 = .ok c)
        (ordSet keyed) chunks ∧
      (["l2", "l3", "l5"] : List String) = chunks.flatten :=
  C6_emitted_order wC6 [] [] [["", "src", "util.h"]] [2] [1]
    ["l1", "l2", "l3", "l4", "l5"] ["l2", "l3", "l5"] (by decide)

/-- Claim C7, counterexample: two distinct extracted symbols of the same file
start on source line 2 with different end lines; the two possible `HashSet`
iteration orders of the extracted set (two runs of the program) emit
different bytes, because the line-keyed `BTreeSet` keeps only the
first-inserted symbol per start line. -/
theorem C7_counterexample :
    [1, 2].Perm [2, 1] ∧
      emitFile wC7 [1, 2] ["l1", "l2", "l3"] = .ok ["l2"] ∧
      emitFile wC7 [2, 1] ["l1", "l2", "l3"] = .ok ["l2", "l3"] ∧
      (["l2"] : List String) ≠ ["l2", "l3"] := by
  refine ⟨by decide, by decide, by decide, by decide⟩

/-- Claim C7 as amended: the per-file emission is deterministic provided no
two distinct entries of the file share a start line: any two `HashSet`
iteration orders (two runs over the same input) produce byte-identical
output.  When two distinct extracted symbols share a start line the output
depends on the iteration order (see the counterexample). -/
theorem C7_deterministic_emission (w : World) (entries1 entries2 : List Nat)
    (src : List String) (out1 out2 : List String)
    (hperm : entries1.Perm entries2)
    (hnd : (entries1.map (lineD w)).Nodup)
    (h1 : emitFile w entries1 src = .ok out1)
    (h2 : emitFile w entries2 src = .ok out2) :
    out1 = out2 := by
  unfold emitFile at h1 h2
  cases hk1 : keyEntries w entries1 with
  | error e => rw [hk1, exbind_err] at h1; exact absurd h1 (by simp)
  | ok keyed1 =>
    rw [hk1, exbind_ok] at h1
    cases hk2 : keyEntries w entries2 with
    | error e => rw [hk2, exbind_err] at h2; exact absurd h2 (by simp)
    | ok keyed2 =>
      rw [hk2, exbind_ok] at h2
      have he1 := keyEntries_ok hk1
      have he2 := keyEntries_ok hk2
      have hkp : keyed1.Perm keyed2 := by
        rw [he1, he2]
        exact hperm.map _
      have hnd1 : (keyed1.map Prod.fst).Nodup := by
        rw [he1, List.map_map]
        have hc : Prod.fst ∘ (fun x => (lineD w x, x)) = lineD w := rfl
        rw [hc]
        exact hnd
      have hnd2 : (keyed2.map Prod.fst).Nodup :=
        ((hkp.map Prod.fst).nodup_iff).mp hnd1
      haveI : IsAntisymm (Nat × Nat) (fun p q => p.1 < q.1) :=
        ⟨fun a b hab hba => absurd (lt_trans hab hba) (lt_irrefl _)⟩
      have heq : ordSet keyed1 = ordSet keyed2 :=
        List.eq_of_perm_of_sorted
          (((ordSet_perm hnd1).trans hkp).trans (ordSet_perm hnd2).symm)
          (ordSet_pairwise keyed1) (ordSet_pairwise keyed2)
      rw [heq] at h1
      rw [h1] at h2
      injection h2 with h3

theorem C7_deterministic_emission_witness :
    (["l1", "l2", "l3", "l4"] : List String) = ["l1", "l2", "l3", "l4"] :=
  C7_deterministic_emission wC1 [0, 1] [1, 0] ["l1", "l2", "l3", "l4", "l5"]
    ["l1", "l2", "l3", "l4"] ["l1", "l2", "l3", "l4"]
    (by decide) (by decide) (by decide) (by decide)

end CcThief
